import Mathlib

set_option maxHeartbeats 1000000

/-!
Shallow embedding of the RoumBle BLE-mesh simulation core
(`node.py`, `engine.py`, `packets.py`): packets, per-node protocol state
(routing table, best-seen sequences, duplicate suppression), beacon (BOM)
handling, data (RMS) forwarding, the neighbor-graph recomputation, and the
connectivity-repair pass.  Numeric quantities use ℚ, Python dictionaries
become insertion-ordered association lists, and `random` draws become an
explicit tape of values supplied to the functions that consume them.
-/

/-- Packet kinds, `packets.py`: `pkt_type` is the string 'BOM' or 'RMS'. -/
inductive PktType where
  | BOM
  | RMS
deriving DecidableEq, Repr

/-- `packets.py`, class `Packet`: fields `pkt_type`, `src`, `sink_id`
(`None` for a freshly generated RMS), `seq`, `hop_count`, `origin`,
`timestamp`. -/
structure Packet where
  pktType : PktType
  src : Nat
  sink : Option Nat
  seq : Nat
  hop : Nat
  origin : Nat
  timestamp : ℚ
deriving DecidableEq, Repr

/-- One routing-table value, `node.py` line 50: `sink_id -> (next_hop_id,
hop_distance, seq)`. -/
structure RTEntry where
  nextHop : Nat
  hopDist : Nat
  seqNum : Nat
deriving DecidableEq, Repr

/-- The protocol state of one `Node` (`node.py` `__init__`): id, sink flag,
current neighbor ids, `routing_table`, `best_seq`, `seen_rms`, `tx_count`.
Dictionaries are insertion-ordered association lists, as in Python. -/
structure NodeState where
  nid : Nat
  isSink : Bool
  neighbors : List Nat
  routing : List (Option Nat × RTEntry)
  bestSeq : List (Option Nat × Nat)
  seen : List (Nat × Nat)
  txCount : Nat
deriving DecidableEq, Repr

/-- Python `dict.get`: first matching key, `none` when absent. -/
def alistGet {α : Type} : List (Option Nat × α) → Option Nat → Option α
  | [], _ => none
  | (k, v) :: rest, key => if k = key then some v else alistGet rest key

/-- Python `dict[key] = v`: overwrite in place when the key exists,
append otherwise (insertion order preserved). -/
def alistSet {α : Type} : List (Option Nat × α) → Option Nat → α → List (Option Nat × α)
  | [], key, v => [(key, v)]
  | (k, w) :: rest, key, v =>
      if k = key then (k, v) :: rest else (k, w) :: alistSet rest key v

/-- The node's best-seen sequence for a sink, with the `-1` default of
`self.best_seq.get(sink, -1)` (`node.py` line 213). -/
def bestSeqInt (st : NodeState) (k : Option Nat) : Int :=
  match alistGet st.bestSeq k with
  | none => -1
  | some q => (q : Int)

/-- The acceptance test of `Node._handle_bom` (`node.py` line 217):
`seq > prev_seq or hop < prev_hop`, where `hop = packet.hop_count + 1`,
`prev_seq = best_seq.get(sink, -1)` and `prev_hop` is the current entry's
hop distance, `math.inf` when no entry exists. -/
def bomAccept (st : NodeState) (p : Packet) : Bool :=
  let hopOk : Bool :=
    match alistGet st.routing p.sink with
    | none => true
    | some e => decide (p.hop + 1 < e.hopDist)
  decide (bestSeqInt st p.sink < (p.seq : Int)) || hopOk

/-- `Node._handle_bom` (`node.py` lines 205-232): on acceptance write
`routing_table[sink] = (packet.src, hop, seq)` and `best_seq[sink] = seq`,
and rebroadcast a new BOM with `src = self.id`, the same `sink_id`, `seq`,
`origin` and `timestamp`, and the incremented hop; on rejection do
nothing. -/
def handleBOM (st : NodeState) (p : Packet) : NodeState × Option Packet :=
  if bomAccept st p then
    let hop := p.hop + 1
    ({ st with
        routing := alistSet st.routing p.sink ⟨p.src, hop, p.seq⟩,
        bestSeq := alistSet st.bestSeq p.sink p.seq },
     some { pktType := .BOM, src := st.nid, sink := p.sink, seq := p.seq,
            hop := hop, origin := p.origin, timestamp := p.timestamp })
  else (st, none)

/-- A node state with empty protocol memory, as after `Node.__init__`. -/
def initNode (i : Nat) (sink : Bool) : NodeState :=
  { nid := i, isSink := sink, neighbors := [], routing := [], bestSeq := [],
    seen := [], txCount := 0 }

theorem alistGet_set_self {α : Type} (l : List (Option Nat × α)) (k : Option Nat) (v : α) :
    alistGet (alistSet l k v) k = some v := by
  induction l with
  | nil => simp [alistGet, alistSet]
  | cons h t ih =>
      obtain ⟨k1, v1⟩ := h
      by_cases hk : k1 = k
      · simp [alistGet, alistSet, hk]
      · simp [alistGet, alistSet, hk, ih]

theorem alistGet_set_ne {α : Type} (l : List (Option Nat × α)) (k k2 : Option Nat) (v : α)
    (h : k ≠ k2) : alistGet (alistSet l k v) k2 = alistGet l k2 := by
  induction l with
  | nil => simp [alistGet, alistSet, h]
  | cons hd t ih =>
      obtain ⟨k1, v1⟩ := hd
      by_cases hk : k1 = k
      · subst hk
        simp [alistGet, alistSet, h]
      · simp [alistGet, alistSet, hk, ih]

/-- A concrete BOM carrying (sink 0, sequence 2) that reaches the node after
two hops (stored hop distance 3 on acceptance). -/
def pktA : Packet := ⟨.BOM, 5, some 0, 2, 2, 0, 0⟩

/-- A later copy of the same (sink 0, sequence 2) beacon over a direct hop. -/
def pktA2 : Packet := ⟨.BOM, 7, some 0, 2, 0, 0, 0⟩

/-- An older beacon (sink 0, sequence 1) arriving over a direct hop. -/
def pktB : Packet := ⟨.BOM, 7, some 0, 1, 0, 0, 0⟩

/-- C1: a node's routing-table entry for a sink is replaced exactly when the
incoming beacon's sequence is strictly greater than the best-seen sequence
(-1 when absent) or its incremented hop is strictly smaller than the current
entry's hop distance (infinity, i.e. always satisfied, when no entry
exists); on acceptance the entry becomes (beacon sender, incremented hop,
sequence), the best-seen sequence becomes the beacon's sequence, and a BOM
copy with the same origin, sequence and timestamp and the updated hop is
rebroadcast; on rejection nothing changes and nothing is rebroadcast. -/
theorem handleBOM_update_iff (st : NodeState) (p : Packet) :
    (bomAccept st p = true ↔
      (bestSeqInt st p.sink < (p.seq : Int) ∨
        (match alistGet st.routing p.sink with
         | none => True
         | some e => p.hop + 1 < e.hopDist))) ∧
    (bomAccept st p = true →
      alistGet (handleBOM st p).1.routing p.sink = some ⟨p.src, p.hop + 1, p.seq⟩ ∧
      alistGet (handleBOM st p).1.bestSeq p.sink = some p.seq ∧
      (handleBOM st p).2 =
        some ⟨.BOM, st.nid, p.sink, p.seq, p.hop + 1, p.origin, p.timestamp⟩) ∧
    (bomAccept st p = false → handleBOM st p = (st, none)) := by
  refine ⟨?_, fun hacc => ?_, fun hrej => ?_⟩
  · unfold bomAccept
    cases h : alistGet st.routing p.sink with
    | none => simp [h]
    | some e => simp [h]
  · simp [handleBOM, hacc, alistGet_set_self]
  · simp [handleBOM, hrej]

/-- Witness for C1: a beacon for an unknown sink is accepted by a fresh node
and installs the expected entry. -/
theorem handleBOM_update_iff_witness :
    alistGet (handleBOM (initNode 3 false) pktB).1.routing (some 0) = some ⟨7, 1, 1⟩ ∧
    alistGet (handleBOM (initNode 3 false) pktB).1.bestSeq (some 0) = some 1 := by
  have h := (handleBOM_update_iff (initNode 3 false) pktB).2.1 (by decide)
  exact ⟨h.1, h.2.1⟩

/-- Counterexample to C2: starting from an empty node, accepting the
two-hop sequence-2 beacon and then the direct-hop sequence-1 beacon (accepted
because its incremented hop 1 beats the stored hop 3) strictly decreases the
recorded best-seen sequence for sink 0 from 2 to 1. -/
theorem bestSeq_decrease_counterexample :
    bestSeqInt (handleBOM (initNode 3 false) pktA).1 (some 0) = 2 ∧
    bestSeqInt (handleBOM (handleBOM (initNode 3 false) pktA).1 pktB).1 (some 0) = 1 ∧
    bestSeqInt (handleBOM (handleBOM (initNode 3 false) pktA).1 pktB).1 (some 0) <
      bestSeqInt (handleBOM (initNode 3 false) pktA).1 (some 0) := by
  refine ⟨by decide, by decide, by decide⟩

/-- C2 amended: the best-seen sequence for a sink never decreases in a
beacon-handling step in which the beacon's incremented hop is at least the
current routing entry's hop distance (with the routing table and best-seen
map in sync when the entry is absent); it can decrease when a strictly
shorter-hop beacon carrying an older sequence is accepted. -/
theorem handleBOM_bestSeq_mono (st : NodeState) (p : Packet)
    (hsync : alistGet st.routing p.sink = none → alistGet st.bestSeq p.sink = none)
    (hhop : ∀ e, alistGet st.routing p.sink = some e → e.hopDist ≤ p.hop + 1) :
    bestSeqInt st p.sink ≤ bestSeqInt (handleBOM st p).1 p.sink := by
  by_cases hacc : bomAccept st p = true
  · have hnew : bestSeqInt (handleBOM st p).1 p.sink = (p.seq : Int) := by
      simp [handleBOM, hacc, bestSeqInt, alistGet_set_self]
    rw [hnew]
    cases hr : alistGet st.routing p.sink with
    | none =>
        have hb := hsync hr
        simp [bestSeqInt, hb]
        omega
    | some e =>
        have he := hhop e hr
        unfold bomAccept at hacc
        cases hb : alistGet st.bestSeq p.sink with
        | none => simp [bestSeqInt, hb]; omega
        | some q =>
            simp [hr, bestSeqInt, hb] at hacc
            rcases hacc with h | h
            · simp [bestSeqInt, hb]; omega
            · omega
  · simp [handleBOM, hacc]

/-- Witness for C2 amended: a fresher sequence-5 beacon with hop not smaller
than the stored hop keeps the best-seen sequence non-decreasing. -/
theorem handleBOM_bestSeq_mono_witness :
    bestSeqInt (handleBOM (initNode 3 false) pktA).1 (some 0) ≤
      bestSeqInt (handleBOM (handleBOM (initNode 3 false) pktA).1
        ⟨.BOM, 9, some 0, 5, 2, 0, 0⟩).1 (some 0) := by
  refine handleBOM_bestSeq_mono _ _ (by decide) ?_
  intro e he
  have hv : alistGet (handleBOM (initNode 3 false) pktA).1.routing (some 0) =
      some ⟨5, 3, 2⟩ := by decide
  rw [hv] at he
  injection he with h
  subst h
  decide

/-- Counterexample to C3: a node accepts (and rebroadcasts) two beacons
carrying the same (sink 0, sequence 2) pair in one run: the second copy
arrives with incremented hop 1, beating the stored hop distance 3. -/
theorem bom_reaccept_counterexample :
    ((handleBOM (initNode 3 false) pktA).2).isSome = true ∧
    ((handleBOM (handleBOM (initNode 3 false) pktA).1 pktA2).2).isSome = true ∧
    pktA.sink = pktA2.sink ∧ pktA.seq = pktA2.seq := by
  refine ⟨by decide, by decide, by decide, by decide⟩

/-- C3 amended: a node can accept a beacon for the same (sink, sequence)
pair more than once, but every re-acceptance whose sequence is not fresher
than the best-seen one carries an incremented hop strictly smaller than the
stored hop distance, so the stored hop distance strictly decreases at each
such re-acceptance. -/
theorem handleBOM_reaccept_shrinks_hop (st : NodeState) (p : Packet) (e : RTEntry) (q : Nat)
    (hb : alistGet st.bestSeq p.sink = some q) (hq : p.seq ≤ q)
    (he : alistGet st.routing p.sink = some e)
    (hacc : bomAccept st p = true) :
    p.hop + 1 < e.hopDist ∧
      alistGet (handleBOM st p).1.routing p.sink = some ⟨p.src, p.hop + 1, p.seq⟩ := by
  have hlt : p.hop + 1 < e.hopDist := by
    unfold bomAccept at hacc
    simp [he, bestSeqInt, hb] at hacc
    rcases hacc with h | h
    · omega
    · exact h
  exact ⟨hlt, by simp [handleBOM, hacc, alistGet_set_self]⟩

/-- Witness for C3 amended: the re-accepted copy of the (sink 0, sequence 2)
beacon strictly shrinks the stored hop distance from 3 to 1. -/
theorem handleBOM_reaccept_shrinks_hop_witness :
    pktA2.hop + 1 < (3 : Nat) ∧
      alistGet (handleBOM (handleBOM (initNode 3 false) pktA).1 pktA2).1.routing
        (some 0) = some ⟨7, 1, 2⟩ := by
  have h := handleBOM_reaccept_shrinks_hop (handleBOM (initNode 3 false) pktA).1
    pktA2 ⟨5, 3, 2⟩ 2 (by decide) (by decide) (by decide) (by decide)
  exact ⟨h.1, h.2⟩

/-- `Node.MAX_HOPS` (`node.py` line 24): default hop limit for RMS. -/
def MAX_HOPS : Nat := 3

/-- Python `min(self.routing_table.items(), key=lambda kv: kv[1][1])`
(`node.py` lines 143-145): the first item with minimal hop distance, `none`
on an empty table. -/
def minByHop : List (Option Nat × RTEntry) → Option (Option Nat × RTEntry)
  | [] => none
  | x :: xs => some (xs.foldl (fun b y => if y.2.hopDist < b.2.hopDist then y else b) x)

/-- The transmission decided by `Node._send_rms`: a unicast to one neighbor
(via `Node._deliver`) or a broadcast to all neighbors (via
`Node._broadcast`). -/
inductive SendAction where
  | unicast (nb : Nat) (p : Packet)
  | broadcast (p : Packet)
deriving DecidableEq, Repr

/-- `Node._send_rms` (`node.py` lines 136-157): with a non-empty routing
table pick the entry with the smallest hop distance, set the packet's
`sink_id` and `hop_count = dist + 1`, and unicast it to the first neighbor
whose id equals the entry's next hop (incrementing `tx_count`); with no
route, or when that neighbor is absent, broadcast (the possibly already
retargeted packet). -/
def sendRMS (st : NodeState) (p : Packet) : NodeState × SendAction :=
  match minByHop st.routing with
  | some (k, e) =>
      let p1 := { p with sink := k, hop := e.hopDist + 1 }
      match st.neighbors.find? (fun nb => nb == e.nextHop) with
      | some nb => ({ st with txCount := st.txCount + 1 }, .unicast nb p1)
      | none => (st, .broadcast p1)
  | none => (st, .broadcast p)

/-- `Node._deliver` (`node.py` lines 177-192): after the transmission delay,
copy the packet with `src = self.id`, increment `tx_count`, and hand the
copy to the neighbor. -/
def deliver (st : NodeState) (p : Packet) : NodeState × Packet :=
  ({ st with txCount := st.txCount + 1 }, { p with src := st.nid })

/-- The loop body of `Node._broadcast` (`node.py` lines 163-175): one packet
copy and one `tx_count` increment per current neighbor. -/
def broadcastAux (copy : Packet) :
    List Nat → NodeState × List (Nat × Packet) → NodeState × List (Nat × Packet)
  | [], acc => acc
  | nb :: rest, acc =>
      broadcastAux copy rest
        ({ acc.1 with txCount := acc.1.txCount + 1 }, acc.2 ++ [(nb, copy)])

/-- `Node._broadcast` (`node.py` lines 159-175). -/
def broadcastPkt (st : NodeState) (p : Packet) : NodeState × List (Nat × Packet) :=
  broadcastAux { p with src := st.nid } st.neighbors (st, [])

/-- A delivery record, `logger.record_data_delivered(latency, hops)`
(`node.py` lines 245-247). -/
structure Delivery where
  latency : ℚ
  hops : Nat
deriving DecidableEq, Repr

/-- `Node._handle_rms` (`node.py` lines 234-253): drop silently when the
(origin, seq) pair was already processed; otherwise mark it seen, record a
delivery when this node is the sink named in the packet, else decrement the
TTL and re-enter `_send_rms` when `hop_count > 1`, and drop otherwise. -/
def handleRMS (st : NodeState) (now : ℚ) (p : Packet) :
    NodeState × Option Delivery × Option SendAction :=
  if (p.origin, p.seq) ∈ st.seen then (st, none, none)
  else
    let st1 := { st with seen := st.seen ++ [(p.origin, p.seq)] }
    if st.isSink = true ∧ p.sink = some st.nid then
      (st1, some ⟨now - p.timestamp, p.hop⟩, none)
    else if p.hop > 1 then
      let r := sendRMS st1 { p with hop := p.hop - 1 }
      (r.1, none, some r.2)
    else (st1, none, none)

theorem foldl_minByHop_le (xs : List (Option Nat × RTEntry)) :
    ∀ a : Option Nat × RTEntry,
      (xs.foldl (fun b y => if y.2.hopDist < b.2.hopDist then y else b) a).2.hopDist ≤
          a.2.hopDist ∧
        ∀ y ∈ xs,
          (xs.foldl (fun b y => if y.2.hopDist < b.2.hopDist then y else b) a).2.hopDist ≤
            y.2.hopDist := by
  induction xs with
  | nil => intro a; simp
  | cons x xs ih =>
      intro a
      have h := ih (if x.2.hopDist < a.2.hopDist then x else a)
      constructor
      · refine le_trans h.1 ?_
        by_cases hx : x.2.hopDist < a.2.hopDist <;> simp [hx] <;> omega
      · intro y hy
        rcases List.mem_cons.mp hy with rfl | hy2
        · refine le_trans h.1 ?_
          by_cases hx : y.2.hopDist < a.2.hopDist <;> simp [hx] <;> omega
        · exact h.2 y hy2

theorem foldl_minByHop_mem (xs : List (Option Nat × RTEntry)) :
    ∀ a : Option Nat × RTEntry,
      (xs.foldl (fun b y => if y.2.hopDist < b.2.hopDist then y else b) a) = a ∨
        (xs.foldl (fun b y => if y.2.hopDist < b.2.hopDist then y else b) a) ∈ xs := by
  induction xs with
  | nil => intro a; simp
  | cons x xs ih =>
      intro a
      rcases ih (if x.2.hopDist < a.2.hopDist then x else a) with h | h
      · rw [List.foldl_cons, h]
        by_cases hx : x.2.hopDist < a.2.hopDist
        · simp [hx]
        · simp [hx]
      · right
        rw [List.foldl_cons]
        exact List.mem_cons_of_mem _ h

/-- C6: with a non-empty routing table `_send_rms` selects an entry of the
table with minimal hop distance, retargets the packet to that entry's sink
with TTL equal to the entry's hop distance plus one, and unicasts it to the
neighbor whose id is the entry's next hop when such a neighbor exists,
otherwise broadcasts it; with an empty routing table the original packet is
broadcast unchanged. -/
theorem sendRMS_spec (st : NodeState) (p : Packet) :
    (st.routing = [] → sendRMS st p = (st, .broadcast p)) ∧
    (st.routing ≠ [] →
      ∃ k e, minByHop st.routing = some (k, e) ∧ (k, e) ∈ st.routing ∧
        (∀ k2 e2, (k2, e2) ∈ st.routing → e.hopDist ≤ e2.hopDist) ∧
        (e.nextHop ∈ st.neighbors →
          (sendRMS st p).2 = .unicast e.nextHop { p with sink := k, hop := e.hopDist + 1 }) ∧
        (e.nextHop ∉ st.neighbors →
          (sendRMS st p).2 = .broadcast { p with sink := k, hop := e.hopDist + 1 })) := by
  constructor
  · intro h
    simp [sendRMS, minByHop, h]
  · intro h
    obtain ⟨x, xs, hx⟩ : ∃ x xs, st.routing = x :: xs := by
      cases hr : st.routing with
      | nil => exact absurd hr h
      | cons x xs => exact ⟨x, xs, rfl⟩
    set m := xs.foldl (fun b y => if y.2.hopDist < b.2.hopDist then y else b) x with hm
    refine ⟨m.1, m.2, ?_, ?_, ?_, ?_, ?_⟩
    · simp [minByHop, hx, hm]
    · rw [Prod.mk.eta, hx]
      rcases foldl_minByHop_mem xs x with he | he
      · rw [hm, he]; exact List.mem_cons_self x xs
      · exact List.mem_cons_of_mem _ (by rw [hm]; exact he)
    · intro k2 e2 hmem
      rw [hx] at hmem
      rcases List.mem_cons.mp hmem with hh | hh
      · have := (foldl_minByHop_le xs x).1
        rw [← hm] at this
        simp [← hh] at this ⊢
        exact this
      · have := (foldl_minByHop_le xs x).2 (k2, e2) hh
        rw [← hm] at this
        exact this
    · intro hnb
      have hfind : ∃ y, st.neighbors.find? (fun nb => nb == m.2.nextHop) = some y := by
        cases hf : st.neighbors.find? (fun nb => nb == m.2.nextHop) with
        | some y => exact ⟨y, rfl⟩
        | none =>
            have := List.find?_eq_none.mp hf m.2.nextHop hnb
            simp at this
      obtain ⟨y, hy⟩ := hfind
      have hyv : y = m.2.nextHop := by
        have := List.find?_some hy
        simpa using this
      subst hyv
      simp [sendRMS, minByHop, hx, ← hm, hy]
    · intro hnb
      have hf : st.neighbors.find? (fun nb => nb == m.2.nextHop) = none := by
        rw [List.find?_eq_none]
        intro y hy
        simp only [beq_iff_eq]
        intro hc
        exact hnb (hc ▸ hy)
      simp [sendRMS, minByHop, hx, ← hm, hf]

/-- Witness for C6: a relay with routes to sinks 9 (distance 2 via neighbor
2) and 4 (distance 5) retargets to sink 9 and unicasts to neighbor 2. -/
theorem sendRMS_spec_witness :
    (sendRMS
        { nid := 1, isSink := false, neighbors := [7, 2],
          routing := [(some 9, ⟨2, 2, 1⟩), (some 4, ⟨7, 5, 1⟩)],
          bestSeq := [], seen := [], txCount := 0 }
        ⟨.RMS, 1, none, 1, 3, 1, 0⟩).2 =
      .unicast 2 ⟨.RMS, 1, some 9, 1, 3, 1, 0⟩ := by
  have h := (sendRMS_spec
    { nid := 1, isSink := false, neighbors := [7, 2],
      routing := [(some 9, ⟨2, 2, 1⟩), (some 4, ⟨7, 5, 1⟩)],
      bestSeq := [], seen := [], txCount := 0 }
    ⟨.RMS, 1, none, 1, 3, 1, 0⟩).2 (by decide)
  obtain ⟨k, e, hmin, hmem, hle, huni, hbrd⟩ := h
  have hv : minByHop [((some 9 : Option Nat), (⟨2, 2, 1⟩ : RTEntry)),
      (some 4, ⟨7, 5, 1⟩)] = some (some 9, ⟨2, 2, 1⟩) := by decide
  rw [hv] at hmin
  injection hmin with h2
  injection h2 with hk1 hk2
  subst hk1
  subst hk2
  exact huni (by decide)

/-- `_send_rms` never touches `seen_rms`. -/
theorem sendRMS_seen (st : NodeState) (p : Packet) : (sendRMS st p).1.seen = st.seen := by
  unfold sendRMS
  cases hm : minByHop st.routing with
  | none => rfl
  | some x =>
      obtain ⟨k, e⟩ := x
      cases hf : st.neighbors.find? (fun nb => nb == e.nextHop) with
      | none => simp [hf]
      | some nb => simp [hf]

/-- Anything already in `seen_rms` stays there across `_handle_rms`. -/
theorem handleRMS_seen_mono (st : NodeState) (now : ℚ) (p : Packet) (a : Nat × Nat)
    (h : a ∈ st.seen) : a ∈ (handleRMS st now p).1.seen := by
  unfold handleRMS
  by_cases h1 : (p.origin, p.seq) ∈ st.seen
  · simp [h1, h]
  · simp only [h1, if_false, if_neg]
    by_cases h2 : st.isSink = true ∧ p.sink = some st.nid
    · simp [h2, List.mem_append, h]
    · simp only [h2, if_false]
      by_cases h3 : p.hop > 1
      · simp only [h3, if_true, sendRMS_seen]
        simp [List.mem_append, h]
      · simp [h3, List.mem_append, h]

/-- A delivery is only recorded for a pair not yet in `seen_rms`. -/
theorem handleRMS_delivery_unseen (st : NodeState) (now : ℚ) (p : Packet)
    (h : (handleRMS st now p).2.1.isSome = true) : (p.origin, p.seq) ∉ st.seen := by
  intro hmem
  simp [handleRMS, hmem] at h

/-- Handling an unseen packet records its pair in `seen_rms`. -/
theorem handleRMS_adds_seen (st : NodeState) (now : ℚ) (p : Packet)
    (h : (p.origin, p.seq) ∉ st.seen) :
    (p.origin, p.seq) ∈ (handleRMS st now p).1.seen := by
  unfold handleRMS
  simp only [h, if_false, if_neg]
  by_cases h2 : st.isSink = true ∧ p.sink = some st.nid
  · simp [h2]
  · simp only [h2, if_false]
    by_cases h3 : p.hop > 1
    · simp [h3, sendRMS_seen]
    · simp [h3]

/-- The number of deliveries the node records for the pair (o, q) while it
processes the given packets in order with `_handle_rms`. -/
def countDeliveries (st : NodeState) (now : ℚ) (o q : Nat) : List Packet → Nat
  | [] => 0
  | p :: rest =>
      (if (handleRMS st now p).2.1.isSome = true ∧ p.origin = o ∧ p.seq = q then 1 else 0) +
        countDeliveries (handleRMS st now p).1 now o q rest

theorem countDeliveries_of_seen (now : ℚ) (o q : Nat) (ps : List Packet) :
    ∀ st : NodeState, (o, q) ∈ st.seen → countDeliveries st now o q ps = 0 := by
  induction ps with
  | nil => intro st _; rfl
  | cons p rest ih =>
      intro st hmem
      have hrest := ih (handleRMS st now p).1 (handleRMS_seen_mono st now p _ hmem)
      unfold countDeliveries
      rw [hrest]
      by_cases hc : (handleRMS st now p).2.1.isSome = true ∧ p.origin = o ∧ p.seq = q
      · exfalso
        have := handleRMS_delivery_unseen st now p hc.1
        rw [hc.2.1, hc.2.2] at this
        exact this hmem
      · simp [hc]

/-- C4: a later arrival of an already-seen (origin, seq) pair leaves the
node state unchanged and produces no delivery and no forward; handling an
unseen pair records it in the duplicate-suppression set; and over any run
the node records at most one delivery for a given (origin, seq) pair. -/
theorem handleRMS_idempotent (st : NodeState) (now : ℚ) (p : Packet) (o q : Nat)
    (ps : List Packet) :
    ((p.origin, p.seq) ∈ st.seen → handleRMS st now p = (st, none, none)) ∧
    ((p.origin, p.seq) ∉ st.seen → (p.origin, p.seq) ∈ (handleRMS st now p).1.seen) ∧
    countDeliveries st now o q ps ≤ 1 := by
  refine ⟨fun h => by simp [handleRMS, h], handleRMS_adds_seen st now p, ?_⟩
  clear p
  induction ps generalizing st with
  | nil => simp [countDeliveries]
  | cons p rest ih =>
      unfold countDeliveries
      by_cases hc : (handleRMS st now p).2.1.isSome = true ∧ p.origin = o ∧ p.seq = q
      · have hun := handleRMS_delivery_unseen st now p hc.1
        have hin : (o, q) ∈ (handleRMS st now p).1.seen := by
          rw [← hc.2.1, ← hc.2.2]
          exact handleRMS_adds_seen st now p hun
        rw [countDeliveries_of_seen now o q rest _ hin]
        simp [hc]
      · simp only [hc, if_false]
        simpa using ih (handleRMS st now p).1

/-- Witness for C4: a sink that has already delivered (origin 0, seq 1)
drops a second copy unchanged, and its first handling marked the pair. -/
theorem handleRMS_idempotent_witness :
    handleRMS
        { nid := 9, isSink := true, neighbors := [1], routing := [], bestSeq := [],
          seen := [(0, 1)], txCount := 0 } 0 ⟨.RMS, 2, some 9, 1, 2, 0, 0⟩ =
      ({ nid := 9, isSink := true, neighbors := [1], routing := [], bestSeq := [],
          seen := [(0, 1)], txCount := 0 }, none, none) ∧
    (0, 1) ∈ (handleRMS (initNode 9 true) 0 ⟨.RMS, 2, some 9, 1, 2, 0, 0⟩).1.seen := by
  constructor
  · exact (handleRMS_idempotent
      { nid := 9, isSink := true, neighbors := [1], routing := [], bestSeq := [],
        seen := [(0, 1)], txCount := 0 } 0 ⟨.RMS, 2, some 9, 1, 2, 0, 0⟩ 0 1 []).1
      (by decide)
  · exact (handleRMS_idempotent (initNode 9 true) 0
      ⟨.RMS, 2, some 9, 1, 2, 0, 0⟩ 0 1 []).2.1 (by decide)

/-- The packet a forwarding action carries. -/
def actionPkt : SendAction → Packet
  | .unicast _ p => p
  | .broadcast p => p

/-- Number of consecutive forwards when the packet traverses the given
relays in order, each handling the packet produced by its predecessor with
`_handle_rms`; the count stops at the first relay that emits nothing. -/
def chainForwards (now : ℚ) : List NodeState → Packet → Nat
  | [], _ => 0
  | n :: rest, p =>
      match (handleRMS n now p).2.2 with
      | some a => 1 + chainForwards now rest (actionPkt a)
      | none => 0

/-- C7 amended: at a node that is not the packet's named sink and has not
seen the (origin, seq) pair, a TTL greater than 1 is decremented and the
packet re-enters `_send_rms`, while a TTL of exactly 1 is dropped silently
with no forward and no delivery; consequently, along a chain of relays with
EMPTY routing tables the number of forwards is min(TTL - 1, chain length) —
the MAX_HOPS budget bounds forwards only on route-less (pure broadcast)
paths, because a relay with a route resets the TTL to its entry's hop
distance plus one. -/
theorem handleRMS_ttl (st : NodeState) (now : ℚ) (p : Packet)
    (hseen : (p.origin, p.seq) ∉ st.seen)
    (hnotsink : ¬(st.isSink = true ∧ p.sink = some st.nid)) :
    (p.hop > 1 →
      (handleRMS st now p).2.2 =
        some (sendRMS { st with seen := st.seen ++ [(p.origin, p.seq)] }
          { p with hop := p.hop - 1 }).2 ∧
      (handleRMS st now p).2.1 = none) ∧
    (p.hop = 1 → (handleRMS st now p).2 = (none, none)) ∧
    (∀ chain : List NodeState,
      (∀ n ∈ chain, n.routing = [] ∧ n.isSink = false ∧ (p.origin, p.seq) ∉ n.seen) →
      chainForwards now chain p = min (p.hop - 1) chain.length) := by
  refine ⟨fun hh => ?_, fun hh => ?_, ?_⟩
  · simp [handleRMS, hseen, hnotsink, hh]
  · simp [handleRMS, hseen, hnotsink, hh]
  · clear hseen hnotsink
    intro chain
    induction chain generalizing p with
    | nil => intro _; simp [chainForwards]
    | cons n rest ih =>
        intro hall
        obtain ⟨hrt, hsink, hsn⟩ := hall n (List.mem_cons_self n rest)
        have hrest : ∀ m ∈ rest, m.routing = [] ∧ m.isSink = false ∧
            (p.origin, p.seq) ∉ m.seen :=
          fun m hm => hall m (List.mem_cons_of_mem n hm)
        have hnot2 : ¬(n.isSink = true ∧ p.sink = some n.nid) := by
          intro hc; rw [hsink] at hc; exact Bool.false_ne_true hc.1
        by_cases hh : p.hop > 1
        · have hsend : (sendRMS { n with seen := n.seen ++ [(p.origin, p.seq)] }
              { p with hop := p.hop - 1 }).2 =
              .broadcast { p with hop := p.hop - 1 } := by
            simp [sendRMS, minByHop, hrt]
          have hstep : (handleRMS n now p).2.2 =
              some (.broadcast { p with hop := p.hop - 1 }) := by
            rw [← hsend]
            simp [handleRMS, hsn, hnot2, hh]
          rw [chainForwards, hstep]
          simp only [actionPkt]
          have hrest2 : ∀ m ∈ rest, m.routing = [] ∧ m.isSink = false ∧
              (({ p with hop := p.hop - 1 } : Packet).origin,
                ({ p with hop := p.hop - 1 } : Packet).seq) ∉ m.seen := by
            simpa using hrest
          rw [ih { p with hop := p.hop - 1 } hrest2]
          simp only [List.length_cons]
          omega
        · have hstep : (handleRMS n now p).2.2 = none := by
            simp [handleRMS, hsn, hnot2, hh]
          rw [chainForwards, hstep]
          simp only [List.length_cons]
          omega

/-- Witness for C7 amended: a fresh route-less relay decrements TTL 3 to 2
and broadcasts, a TTL-1 packet is dropped, and along two route-less relays
a TTL-3 packet is forwarded exactly twice. -/
theorem handleRMS_ttl_witness :
    (handleRMS (initNode 4 false) 0 ⟨.RMS, 0, none, 1, 3, 0, 0⟩).2.2 =
      some (.broadcast ⟨.RMS, 0, none, 1, 2, 0, 0⟩) ∧
    (handleRMS (initNode 4 false) 0 ⟨.RMS, 0, none, 1, 1, 0, 0⟩).2 = (none, none) ∧
    chainForwards 0 [initNode 4 false, initNode 5 false] ⟨.RMS, 0, none, 1, 3, 0, 0⟩ = 2 := by
  have h1 := (handleRMS_ttl (initNode 4 false) 0 ⟨.RMS, 0, none, 1, 3, 0, 0⟩
    (by decide) (by decide)).1 (by decide)
  have h2 := (handleRMS_ttl (initNode 4 false) 0 ⟨.RMS, 0, none, 1, 1, 0, 0⟩
    (by decide) (by decide)).2.1 (by decide)
  have h3 := (handleRMS_ttl (initNode 4 false) 0 ⟨.RMS, 0, none, 1, 3, 0, 0⟩
    (by decide) (by decide)).2.2 [initNode 4 false, initNode 5 false] (by decide)
  refine ⟨?_, h2, ?_⟩
  · rw [h1.1]; rfl
  · rw [h3]; rfl

/-- A relay with a routing entry for sink 9 at hop distance 2 via the given
next-hop neighbor, as built by accepting a sequence-1 beacon. -/
def chainRelay (i nxt : Nat) : NodeState :=
  { nid := i, isSink := false, neighbors := [nxt],
    routing := [(some 9, ⟨nxt, 2, 1⟩)], bestSeq := [(some 9, 1)],
    seen := [], txCount := 0 }

/-- Counterexample to C7's consequence: an RMS generated with TTL = MAX_HOPS
is forwarded by relays 1, 2 and 3 — that is MAX_HOPS forwards after the
origin's initial transmission — because each routed relay RESETS the TTL to
its entry's hop distance + 1 = 3 in `_send_rms`; after those MAX_HOPS
forwards the packet is neither dropped nor undeliverable: sink 9 then
records a delivery. -/
theorem rms_outlives_maxhops_counterexample :
    (handleRMS (chainRelay 1 2) 0 ⟨.RMS, 0, none, 1, MAX_HOPS, 0, 0⟩).2.2 =
      some (.unicast 2 ⟨.RMS, 0, some 9, 1, 3, 0, 0⟩) ∧
    (handleRMS (chainRelay 2 3) 0 ⟨.RMS, 1, some 9, 1, 3, 0, 0⟩).2.2 =
      some (.unicast 3 ⟨.RMS, 1, some 9, 1, 3, 0, 0⟩) ∧
    (handleRMS (chainRelay 3 9) 0 ⟨.RMS, 2, some 9, 1, 3, 0, 0⟩).2.2 =
      some (.unicast 9 ⟨.RMS, 2, some 9, 1, 3, 0, 0⟩) ∧
    (handleRMS (initNode 9 true) 0 ⟨.RMS, 3, some 9, 1, 3, 0, 0⟩).2.1.isSome = true := by
  refine ⟨by decide, by decide, by decide, by decide⟩

/-- txCount after the `_broadcast` loop grows by exactly the number of
neighbors iterated. -/
theorem broadcastAux_txCount (c : Packet) (l : List Nat) :
    ∀ acc : NodeState × List (Nat × Packet),
      (broadcastAux c l acc).1.txCount = acc.1.txCount + l.length := by
  induction l with
  | nil => intro acc; simp [broadcastAux]
  | cons nb rest ih =>
      intro acc
      rw [broadcastAux, ih]
      simp only [List.length_cons]
      omega

/-- The `_broadcast` loop hands one copy (src rewritten to the sender) to
each neighbor, in order. -/
theorem broadcastAux_receivers (c : Packet) (l : List Nat) :
    ∀ acc : NodeState × List (Nat × Packet),
      (broadcastAux c l acc).2 = acc.2 ++ l.map (fun nb => (nb, c)) := by
  induction l with
  | nil => intro acc; simp [broadcastAux]
  | cons nb rest ih =>
      intro acc
      rw [broadcastAux, ih]
      simp

/-- C10: when `_send_rms` decides on a unicast, the sender's tx_count grows
by exactly 2 for that packet — once at initiation inside `_send_rms` and
once when the delayed `_deliver` runs; when it decides on a broadcast,
tx_count grows by exactly one per current neighbor (and one copy is handed
to each neighbor). -/
theorem txCount_unicast_two_broadcast_per_neighbor (st : NodeState) (p : Packet) :
    (∀ nb p1, (sendRMS st p).2 = .unicast nb p1 →
      (deliver (sendRMS st p).1 p1).1.txCount = st.txCount + 2) ∧
    (∀ p1, (sendRMS st p).2 = .broadcast p1 →
      (broadcastPkt (sendRMS st p).1 p1).1.txCount = st.txCount + st.neighbors.length ∧
      (broadcastPkt (sendRMS st p).1 p1).2 =
        st.neighbors.map (fun nb => (nb, { p1 with src := st.nid }))) := by
  have hnb : (sendRMS st p).1.neighbors = st.neighbors := by
    unfold sendRMS
    cases hm : minByHop st.routing with
    | none => rfl
    | some x =>
        obtain ⟨k, e⟩ := x
        cases hf : st.neighbors.find? (fun nb => nb == e.nextHop) with
        | none => simp [hf]
        | some nb => simp [hf]
  have hnid : (sendRMS st p).1.nid = st.nid := by
    unfold sendRMS
    cases hm : minByHop st.routing with
    | none => rfl
    | some x =>
        obtain ⟨k, e⟩ := x
        cases hf : st.neighbors.find? (fun nb => nb == e.nextHop) with
        | none => simp [hf]
        | some nb => simp [hf]
  constructor
  · intro nb p1 huni
    have htx : (sendRMS st p).1.txCount = st.txCount + 1 := by
      unfold sendRMS at huni ⊢
      cases hm : minByHop st.routing with
      | none =>
          rw [hm] at huni
          simp at huni
      | some x =>
          obtain ⟨k, e⟩ := x
          rw [hm] at huni
          cases hf : st.neighbors.find? (fun nb2 => nb2 == e.nextHop) with
          | none => simp [hf] at huni
          | some y => simp [hf]
    simp [deliver, htx]
  · intro p1 hbrd
    have htx : (sendRMS st p).1.txCount = st.txCount := by
      unfold sendRMS at hbrd ⊢
      cases hm : minByHop st.routing with
      | none => rfl
      | some x =>
          obtain ⟨k, e⟩ := x
          rw [hm] at hbrd
          cases hf : st.neighbors.find? (fun nb2 => nb2 == e.nextHop) with
          | none => simp [hf]
          | some y => simp [hf] at hbrd
    constructor
    · rw [broadcastPkt, broadcastAux_txCount, htx, hnb]
    · rw [broadcastPkt, broadcastAux_receivers, hnb, hnid]
      simp

/-- Witness for C10: relay 1 unicasts to neighbor 2 and its tx_count ends
at 2; a route-less node with neighbors [5, 6] broadcasts and its tx_count
ends at 2 as well — one per neighbor. -/
theorem txCount_unicast_two_broadcast_per_neighbor_witness :
    (deliver (sendRMS (chainRelay 1 2) ⟨.RMS, 0, none, 1, 2, 0, 0⟩).1
        ⟨.RMS, 0, some 9, 1, 3, 0, 0⟩).1.txCount = 2 ∧
    (broadcastPkt (sendRMS
        { nid := 4, isSink := false, neighbors := [5, 6], routing := [], bestSeq := [],
          seen := [], txCount := 0 } ⟨.RMS, 4, none, 1, 3, 4, 0⟩).1
        ⟨.RMS, 4, none, 1, 3, 4, 0⟩).1.txCount = 2 := by
  constructor
  · exact (txCount_unicast_two_broadcast_per_neighbor (chainRelay 1 2)
      ⟨.RMS, 0, none, 1, 2, 0, 0⟩).1 2 ⟨.RMS, 0, some 9, 1, 3, 0, 0⟩ (by decide)
  · exact ((txCount_unicast_two_broadcast_per_neighbor
      { nid := 4, isSink := false, neighbors := [5, 6], routing := [], bestSeq := [],
        seen := [], txCount := 0 } ⟨.RMS, 4, none, 1, 3, 4, 0⟩).2
      ⟨.RMS, 4, none, 1, 3, 4, 0⟩ (by decide)).1

/-- Squared Euclidean distance between two positions; `math.hypot` range
comparisons are embedded on squares (both sides are nonnegative). -/
def distSq (a b : ℚ × ℚ) : ℚ := (a.1 - b.1) ^ 2 + (a.2 - b.2) ^ 2

/-- `Node.COMM_RANGE` (`node.py` line 17). -/
def COMM_RANGE : ℚ := 30

/-- `dist <= Node.COMM_RANGE` (`engine.py` line 179), in squared form. -/
def withinRange (a b : ℚ × ℚ) : Bool := decide (distSq a b ≤ COMM_RANGE ^ 2)

/-- The index pairs (i, j), i < j, visited by the double loop of
`SimulationEngine.update_neighbors` (`engine.py` lines 173-174), in loop
order. -/
def pairIdx (n : Nat) : List (Nat × Nat) :=
  (List.range n).bind (fun i =>
    ((List.range n).filter (fun j => i < j)).map (fun j => (i, j)))

/-- `node.neighbors.append(other)`: extend the neighbor list at index i
with j. -/
def addNbr (tbl : List (List Nat)) (i j : Nat) : List (List Nat) :=
  tbl.set i (tbl.getD i [] ++ [j])

/-- The body of the double loop of `update_neighbors` (`engine.py` lines
175-181): when the two nodes are within range, append each to the other's
neighbor list. -/
def nbStep (ps : List (ℚ × ℚ)) (tbl : List (List Nat)) (ij : Nat × Nat) : List (List Nat) :=
  if withinRange (ps.getD ij.1 (0, 0)) (ps.getD ij.2 (0, 0)) then
    addNbr (addNbr tbl ij.1 ij.2) ij.2 ij.1
  else tbl

/-- `SimulationEngine.update_neighbors` (`engine.py` lines 165-181): clear
every neighbor list, then run the ordered double loop. -/
def updateNeighbors (ps : List (ℚ × ℚ)) : List (List Nat) :=
  (pairIdx ps.length).foldl (nbStep ps) (List.replicate ps.length [])

theorem list_set_getD_self {α : Type} (d : α) :
    ∀ (l : List α) (n : Nat) (v : α), n < l.length → (l.set n v).getD n d = v
  | [], n, _, h => absurd h (by simp)
  | _ :: _, 0, _, _ => rfl
  | _ :: t, n + 1, v, h => list_set_getD_self d t n v (by simpa using h)

theorem list_set_getD_ne {α : Type} (d : α) :
    ∀ (l : List α) (n k : Nat) (v : α), k ≠ n → (l.set n v).getD k d = l.getD k d
  | [], _, _, _, _ => rfl
  | _ :: _, 0, 0, _, h => absurd rfl h
  | _ :: _, 0, _ + 1, _, _ => rfl
  | _ :: _, _ + 1, 0, _, _ => rfl
  | _ :: t, n + 1, k + 1, v, h =>
      list_set_getD_ne d t n k v (fun hh => h (congrArg Nat.succ hh))

theorem addNbr_length (tbl : List (List Nat)) (i j : Nat) :
    (addNbr tbl i j).length = tbl.length := by
  simp [addNbr]

theorem addNbr_getD_self (tbl : List (List Nat)) (i j : Nat) (h : i < tbl.length) :
    (addNbr tbl i j).getD i [] = tbl.getD i [] ++ [j] :=
  list_set_getD_self [] tbl i _ h

theorem addNbr_getD_ne (tbl : List (List Nat)) (i j k : Nat) (h : k ≠ i) :
    (addNbr tbl i j).getD k [] = tbl.getD k [] :=
  list_set_getD_ne [] tbl i k _ h

theorem nbStep_length (ps : List (ℚ × ℚ)) (tbl : List (List Nat)) (ij : Nat × Nat) :
    (nbStep ps tbl ij).length = tbl.length := by
  unfold nbStep
  by_cases h : withinRange (ps.getD ij.1 (0, 0)) (ps.getD ij.2 (0, 0)) = true
  · rw [if_pos h, addNbr_length, addNbr_length]
  · rw [if_neg h]

theorem nbStep_mem (ps : List (ℚ × ℚ)) (tbl : List (List Nat)) (a b k j : Nat)
    (ha : a < tbl.length) (hb : b < tbl.length) (hab : a ≠ b) :
    (j ∈ (nbStep ps tbl (a, b)).getD k [] ↔
      j ∈ tbl.getD k [] ∨
        (withinRange (ps.getD a (0, 0)) (ps.getD b (0, 0)) = true ∧
          ((a = k ∧ b = j) ∨ (a = j ∧ b = k)))) := by
  unfold nbStep
  by_cases hw : withinRange (ps.getD a (0, 0)) (ps.getD b (0, 0)) = true
  · rw [if_pos hw]
    by_cases hk1 : k = a
    · subst hk1
      rw [addNbr_getD_ne _ _ _ _ hab, addNbr_getD_self _ _ _ ha]
      constructor
      · intro hmem
        rcases List.mem_append.mp hmem with h | h
        · exact Or.inl h
        · exact Or.inr ⟨hw, Or.inl ⟨rfl, (List.mem_singleton.mp h).symm⟩⟩
      · rintro (h | ⟨-, (⟨-, rfl⟩ | ⟨rfl, hba⟩)⟩)
        · exact List.mem_append.mpr (Or.inl h)
        · exact List.mem_append.mpr (Or.inr (List.mem_singleton.mpr rfl))
        · exact absurd hba.symm hab
    · by_cases hk2 : k = b
      · subst hk2
        rw [addNbr_getD_self _ _ _ (by rw [addNbr_length]; exact hb),
          addNbr_getD_ne _ _ _ _ (Ne.symm hab)]
        constructor
        · intro hmem
          rcases List.mem_append.mp hmem with h | h
          · exact Or.inl h
          · exact Or.inr ⟨hw, Or.inr ⟨(List.mem_singleton.mp h).symm, rfl⟩⟩
        · rintro (h | ⟨-, (⟨hba, -⟩ | ⟨rfl, -⟩)⟩)
          · exact List.mem_append.mpr (Or.inl h)
          · exact absurd hba hab
          · exact List.mem_append.mpr (Or.inr (List.mem_singleton.mpr rfl))
      · rw [addNbr_getD_ne _ _ _ _ hk2, addNbr_getD_ne _ _ _ _ hk1]
        constructor
        · exact Or.inl
        · rintro (h | ⟨-, (⟨h1, -⟩ | ⟨-, h2⟩)⟩)
          · exact h
          · exact absurd h1.symm hk1
          · exact absurd h2.symm hk2
  · rw [if_neg hw]
    constructor
    · exact Or.inl
    · rintro (h | ⟨hww, -⟩)
      · exact h
      · exact absurd hww hw

theorem nbFold_mem (ps : List (ℚ × ℚ)) (k j : Nat) :
    ∀ (l : List (Nat × Nat)) (tbl : List (List Nat)),
      (∀ ab ∈ l, ab.1 < tbl.length ∧ ab.2 < tbl.length ∧ ab.1 ≠ ab.2) →
      (j ∈ (l.foldl (nbStep ps) tbl).getD k [] ↔
        j ∈ tbl.getD k [] ∨
          ∃ ab ∈ l, withinRange (ps.getD ab.1 (0, 0)) (ps.getD ab.2 (0, 0)) = true ∧
            ((ab.1 = k ∧ ab.2 = j) ∨ (ab.1 = j ∧ ab.2 = k))) := by
  intro l
  induction l with
  | nil => intro tbl _; simp
  | cons ab rest ih =>
      intro tbl hall
      obtain ⟨a, b⟩ := ab
      have hb := hall (a, b) (List.mem_cons_self _ _)
      have hrest : ∀ ab2 ∈ rest, ab2.1 < (nbStep ps tbl (a, b)).length ∧
          ab2.2 < (nbStep ps tbl (a, b)).length ∧ ab2.1 ≠ ab2.2 := by
        intro ab2 h2
        rw [nbStep_length]
        exact hall ab2 (List.mem_cons_of_mem _ h2)
      rw [List.foldl_cons, ih (nbStep ps tbl (a, b)) hrest,
        nbStep_mem ps tbl a b k j hb.1 hb.2.1 hb.2.2]
      constructor
      · rintro ((h | h) | ⟨ab2, hm2, h2⟩)
        · exact Or.inl h
        · exact Or.inr ⟨(a, b), List.mem_cons_self _ _, h⟩
        · exact Or.inr ⟨ab2, List.mem_cons_of_mem _ hm2, h2⟩
      · rintro (h | ⟨ab2, hm2, h2⟩)
        · exact Or.inl (Or.inl h)
        · rcases List.mem_cons.mp hm2 with rfl | hm3
          · exact Or.inl (Or.inr h2)
          · exact Or.inr ⟨ab2, hm3, h2⟩

theorem pairIdx_mem (n a b : Nat) : (a, b) ∈ pairIdx n ↔ a < b ∧ b < n := by
  simp only [pairIdx, List.mem_bind, List.mem_map, List.mem_filter, List.mem_range,
    Prod.mk.injEq, decide_eq_true_eq]
  constructor
  · rintro ⟨i, hi, j, ⟨hjn, hij⟩, rfl, rfl⟩
    exact ⟨hij, hjn⟩
  · rintro ⟨hab, hbn⟩
    exact ⟨a, by omega, b, ⟨hbn, hab⟩, rfl, rfl⟩

theorem replicate_getD (n k : Nat) : (List.replicate n ([] : List Nat)).getD k [] = [] := by
  induction n generalizing k with
  | zero => cases k <;> rfl
  | succ m ih =>
      cases k with
      | zero => rfl
      | succ kk => simpa [List.replicate] using ih kk

theorem distSq_comm (a b : ℚ × ℚ) : distSq a b = distSq b a := by
  unfold distSq; ring

theorem updateNeighbors_mem (ps : List (ℚ × ℚ)) (k j : Nat) :
    j ∈ (updateNeighbors ps).getD k [] ↔
      ((k < j ∧ j < ps.length ∧
          withinRange (ps.getD k (0, 0)) (ps.getD j (0, 0)) = true) ∨
        (j < k ∧ k < ps.length ∧
          withinRange (ps.getD j (0, 0)) (ps.getD k (0, 0)) = true)) := by
  unfold updateNeighbors
  rw [nbFold_mem ps k j (pairIdx ps.length) (List.replicate ps.length [])
    (by
      intro ab hab
      have := (pairIdx_mem ps.length ab.1 ab.2).mp (by
        obtain ⟨a2, b2⟩ := ab
        exact hab)
      simp only [List.length_replicate]
      omega)]
  rw [replicate_getD]
  simp only [List.mem_nil_iff, false_or]
  constructor
  · rintro ⟨ab, hm, hw, (⟨h1, h2⟩ | ⟨h1, h2⟩)⟩
    · obtain ⟨a2, b2⟩ := ab
      have hp := (pairIdx_mem ps.length a2 b2).mp hm
      left
      subst h1; subst h2
      exact ⟨hp.1, hp.2, hw⟩
    · obtain ⟨a2, b2⟩ := ab
      have hp := (pairIdx_mem ps.length a2 b2).mp hm
      right
      subst h1; subst h2
      exact ⟨hp.1, hp.2, hw⟩
  · rintro (⟨h1, h2, hw⟩ | ⟨h1, h2, hw⟩)
    · exact ⟨(k, j), (pairIdx_mem ps.length k j).mpr ⟨h1, h2⟩, hw, Or.inl ⟨rfl, rfl⟩⟩
    · exact ⟨(j, k), (pairIdx_mem ps.length j k).mpr ⟨h1, h2⟩, hw, Or.inr ⟨rfl, rfl⟩⟩

/-- C5: after a neighbor-graph recomputation, a node j is in node k's
neighbor list exactly when they are distinct and within communication
range, the relation is symmetric, and no node is its own neighbor. -/
theorem updateNeighbors_adjacency (ps : List (ℚ × ℚ)) (k j : Nat)
    (hk : k < ps.length) (hj : j < ps.length) :
    (j ∈ (updateNeighbors ps).getD k [] ↔
      (k ≠ j ∧ withinRange (ps.getD k (0, 0)) (ps.getD j (0, 0)) = true)) ∧
    (j ∈ (updateNeighbors ps).getD k [] ↔ k ∈ (updateNeighbors ps).getD j []) ∧
    k ∉ (updateNeighbors ps).getD k [] := by
  have hsymm : withinRange (ps.getD j (0, 0)) (ps.getD k (0, 0)) =
      withinRange (ps.getD k (0, 0)) (ps.getD j (0, 0)) := by
    unfold withinRange
    rw [distSq_comm]
  refine ⟨?_, ?_, ?_⟩
  · rw [updateNeighbors_mem]
    constructor
    · rintro (⟨h1, _, hw⟩ | ⟨h1, _, hw⟩)
      · exact ⟨by omega, hw⟩
      · exact ⟨by omega, by rw [← hsymm]; exact hw⟩
    · rintro ⟨hne, hw⟩
      rcases Nat.lt_or_ge k j with h | h
      · exact Or.inl ⟨h, hj, hw⟩
      · have : j < k := by omega
        exact Or.inr ⟨this, hk, by rw [hsymm]; exact hw⟩
  · rw [updateNeighbors_mem, updateNeighbors_mem]
    constructor
    · rintro (⟨h1, h2, hw⟩ | ⟨h1, h2, hw⟩)
      · exact Or.inr ⟨h1, h2, hw⟩
      · exact Or.inl ⟨h1, h2, hw⟩
    · rintro (⟨h1, h2, hw⟩ | ⟨h1, h2, hw⟩)
      · exact Or.inr ⟨h1, h2, hw⟩
      · exact Or.inl ⟨h1, h2, hw⟩
  · rw [updateNeighbors_mem]
    rintro (⟨h1, -, -⟩ | ⟨h1, -, -⟩) <;> omega

/-- Witness for C5: three nodes at x = 0, 10, 100 — the first two are
mutual neighbors, the far one is isolated and not its own neighbor. -/
theorem updateNeighbors_adjacency_witness :
    ((1 : Nat) ∈ (updateNeighbors [(0, 0), (10, 0), (100, 0)]).getD 0 [] ↔
      ((0 : Nat) ≠ 1 ∧ withinRange (((0 : ℚ), (0 : ℚ))) (((10 : ℚ), (0 : ℚ))) = true)) ∧
    ((1 : Nat) ∈ (updateNeighbors [(0, 0), (10, 0), (100, 0)]).getD 0 [] ↔
      (0 : Nat) ∈ (updateNeighbors [(0, 0), (10, 0), (100, 0)]).getD 1 []) ∧
    (2 : Nat) ∉ (updateNeighbors [(0, 0), (10, 0), (100, 0)]).getD 2 [] := by
  have h1 := updateNeighbors_adjacency [(0, 0), (10, 0), (100, 0)] 0 1
    (by decide) (by decide)
  have h2 := updateNeighbors_adjacency [(0, 0), (10, 0), (100, 0)] 2 2
    (by decide) (by decide)
  exact ⟨h1.1, h1.2.1, h2.2.2⟩

/-- Constructor configuration of `SimulationEngine.__init__` (`engine.py`
lines 19-33).  Counts are signed integers: Python accepts any int here. -/
structure EngineConfig where
  numMesh : Int
  numMobile : Int
  areaW : ℚ
  areaH : ℚ
  sinkPositions : Option (List (ℚ × ℚ))
  minDist : ℚ
deriving DecidableEq

/-- Python `range(n)` for a possibly negative count: empty when n ≤ 0. -/
def pyRange (n : Int) : List Nat := List.range n.toNat

/-- Default sink positions (`engine.py` lines 44-48), with the float
literals 0.33, 0.5 and 0.66 embedded as exact rationals. -/
def defaultSinks (w h : ℚ) : List (ℚ × ℚ) :=
  [(w * (33 / 100), h * (1 / 2)), (w * (66 / 100), h * (1 / 2))]

/-- `random.uniform(a, b)` applied to a tape value u (meant to lie in
[0, 1]). -/
def uniformDraw (a b u : ℚ) : ℚ := a + u * (b - a)

/-- `max(0, min(bound, x))`, the clipping used throughout `engine.py`. -/
def clamp1 (hi x : ℚ) : ℚ := max 0 (min hi x)

/-- Clip a point to the simulation area. -/
def clampBox (w h : ℚ) (p : ℚ × ℚ) : ℚ × ℚ := (clamp1 w p.1, clamp1 h p.2)

/-- The min-dist check of `engine.py` (lines 86-91, 121-126, 215-222):
good iff no other static position is strictly closer than `min_dist`
(squared form). -/
def minDistOk (staticPos : List (ℚ × ℚ)) (d : ℚ) (p : ℚ × ℚ) : Bool :=
  staticPos.all (fun s => decide (d ^ 2 ≤ distSq p s))

/-- The 50-attempt jitter loop placing one sink (`engine.py` lines 79-98):
keep the intended position if the static set is empty or min-dist holds,
else jitter around the intended position and clip, giving up after 50
attempts with whatever the last jitter produced. -/
def placeSink (w h d : ℚ) (staticPos : List (ℚ × ℚ)) (pos : ℚ × ℚ)
    (tape : Nat → Nat × ℚ × ℚ) : Nat → ℚ × ℚ → Nat → (ℚ × ℚ) × Nat
  | 0, xy, t => (xy, t)
  | fuel + 1, xy, t =>
      if staticPos = [] then (xy, t)
      else if minDistOk staticPos d xy then (xy, t)
      else
        let u := (tape t).2
        let xy2 := clampBox w h
          (pos.1 + uniformDraw (-d) d u.1, pos.2 + uniformDraw (-d) d u.2)
        placeSink w h d staticPos pos tape fuel xy2 (t + 1)

/-- Phase 1 of `_create_nodes`: place every sink in order, accumulating
static positions. -/
def placeSinks (w h d : ℚ) (tape : Nat → Nat × ℚ × ℚ) :
    List (ℚ × ℚ) → List (ℚ × ℚ) → Nat → List (ℚ × ℚ) × Nat
  | [], acc, t => (acc, t)
  | pos :: rest, acc, t =>
      let r := placeSink w h d acc pos tape 50 pos t
      placeSinks w h d tape rest (acc ++ [r.1]) r.2

/-- The 200-attempt rejection sampling for one mesh node (`engine.py`
lines 117-129). -/
def placeMeshAttempts (x0 y0 subW subH d : ℚ) (staticPos : List (ℚ × ℚ))
    (tape : Nat → Nat × ℚ × ℚ) : Nat → Nat → Option (ℚ × ℚ) × Nat
  | 0, t => (none, t)
  | fuel + 1, t =>
      let u := (tape t).2
      let p := (uniformDraw x0 (x0 + subW) u.1, uniformDraw y0 (y0 + subH) u.2)
      if minDistOk staticPos d p then (some p, t + 1)
      else placeMeshAttempts x0 y0 subW subH d staticPos tape fuel (t + 1)

/-- Phase 2 of `_create_nodes` (`engine.py` lines 111-149): place the mesh
nodes one by one; on 200 failed attempts snap next to a random existing
static position at distance `min_dist` along a random direction (the tape's
unit vector) and clip. -/
def placeMesh (w h d x0 y0 subW subH : ℚ) (tape : Nat → Nat × ℚ × ℚ) :
    Nat → List (ℚ × ℚ) → Nat → List (ℚ × ℚ) × Nat
  | 0, staticPos, t => (staticPos, t)
  | n + 1, staticPos, t =>
      let r := placeMeshAttempts x0 y0 subW subH d staticPos tape 200 t
      match r.1 with
      | some p => placeMesh w h d x0 y0 subW subH tape n (staticPos ++ [p]) r.2
      | none =>
          let c := (tape r.2).1
          let anchor := staticPos.getD (c % staticPos.length) (0, 0)
          let v := (tape (r.2 + 1)).2
          let p := clampBox w h (anchor.1 + d * v.1, anchor.2 + d * v.2)
          placeMesh w h d x0 y0 subW subH tape n (staticPos ++ [p]) (r.2 + 2)

/-- Phase 3 of `_create_nodes` (`engine.py` lines 151-163): mobiles anywhere
in the full area. -/
def placeMobiles (w h : ℚ) (tape : Nat → Nat × ℚ × ℚ) :
    Nat → Nat → List (ℚ × ℚ) × Nat
  | 0, t => ([], t)
  | n + 1, t =>
      let u := (tape t).2
      let p := (uniformDraw 0 w u.1, uniformDraw 0 h u.2)
      let r := placeMobiles w h tape n (t + 1)
      (p :: r.1, r.2)

/-- A node's role: sink, static relay, or mobile phone. -/
inductive Role where
  | sink
  | relay
  | mobile
deriving DecidableEq, Repr

/-- One constructed node: id, role, initial position. -/
structure PlacedNode where
  nid : Nat
  role : Role
  pos : ℚ × ℚ
deriving DecidableEq

/-- `SimulationEngine._create_nodes` (`engine.py` lines 66-163), driven by
an explicit random tape: sinks first, then mesh relays, then mobiles, with
ids assigned in creation order.  Note that `__init__` (lines 19-64) performs
NO validation of the configuration: every `EngineConfig` value, including
negative counts and a negative area, flows straight into node creation. -/
def createNodes (cfg : EngineConfig) (tape : Nat → Nat × ℚ × ℚ) : List PlacedNode :=
  let sinksIn := match cfg.sinkPositions with
    | none => defaultSinks cfg.areaW cfg.areaH
    | some l => l
  let s := placeSinks cfg.areaW cfg.areaH cfg.minDist tape sinksIn [] 0
  let subW : ℚ := 80
  let subH : ℚ := 80
  let x0 := (cfg.areaW - subW) / 2
  let y0 := (cfg.areaH - subH) / 2
  let m := placeMesh cfg.areaW cfg.areaH cfg.minDist x0 y0 subW subH tape
    (pyRange cfg.numMesh).length s.1 s.2
  let mb := placeMobiles cfg.areaW cfg.areaH tape (pyRange cfg.numMobile).length m.2
  (List.range (m.1.length + mb.1.length)).map (fun i =>
    if i < sinksIn.length then ⟨i, .sink, m.1.getD i (0, 0)⟩
    else if i < m.1.length then ⟨i, .relay, m.1.getD i (0, 0)⟩
    else ⟨i, .mobile, mb.1.getD (i - m.1.length) (0, 0)⟩)

/-- C9 exhibit: engine construction does NOT fail fast on invalid
configuration values.  With a mesh count of -5, a mobile count of -1 and a
negative 200 x 200 area, `__init__` raises nothing: `range(-5)` and
`range(-1)` silently create no nodes, the negative area flows into the
default sink positions, and construction completes with just the two sinks
at (-66, -100) and (-132, -100). -/
theorem engineInit_accepts_invalid_config :
    (createNodes ⟨-5, -1, -200, -200, none, 14⟩ (fun _ => (0, 0, 0))).map
        PlacedNode.role = [.sink, .sink] ∧
    (createNodes ⟨-5, -1, -200, -200, none, 14⟩ (fun _ => (0, 0, 0))).map
        PlacedNode.pos = [(-66, -100), (-132, -100)] := by
  constructor
  · decide
  · norm_num [createNodes, defaultSinks, placeSinks, placeSink, placeMesh,
      placeMobiles, pyRange, minDistOk, distSq, clampBox, clamp1, uniformDraw,
      List.range_succ]

/-- The fixed data of `_ensure_each_has_neighbor` (`engine.py` lines
183-237): area bounds, which node index is mobile, the min-dist parameter,
and the random tape (per cell: a choice number and a unit direction
vector standing for (cos angle, sin angle)). -/
structure RepairCtx where
  w : ℚ
  h : ℚ
  mobile : List Bool
  minDist : ℚ
  tape : Nat → Nat × ℚ × ℚ

/-- `static_nodes = [n for n in self.nodes if not n.is_mobile]`
(`engine.py` line 189), as indices in node order. -/
def staticIdx (mobile : List Bool) : List Nat :=
  (List.range mobile.length).filter (fun k => !(mobile.getD k true))

/-- The relocation min-dist check (`engine.py` lines 216-222): every OTHER
static node is at distance at least `min_dist`, at current positions. -/
def relocOk (ctx : RepairCtx) (pos : List (ℚ × ℚ)) (k : Nat) (p : ℚ × ℚ) : Bool :=
  (staticIdx ctx.mobile).all
    (fun o => o == k || decide (ctx.minDist ^ 2 ≤ distSq p (pos.getD o (0, 0))))

/-- The 50-attempt relocation loop (`engine.py` lines 207-227): offsets at
radius COMM_RANGE * 0.8 = 24 around the anchor, clipped to the area,
accepted when the min-dist check passes. -/
def findOffset (ctx : RepairCtx) (pos : List (ℚ × ℚ)) (k : Nat) (anchor : ℚ × ℚ) :
    Nat → Nat → Option (ℚ × ℚ) × Nat
  | 0, t => (none, t)
  | fuel + 1, t =>
      if relocOk ctx pos k (clampBox ctx.w ctx.h
          (anchor.1 + 24 * ((ctx.tape t).2).1, anchor.2 + 24 * ((ctx.tape t).2).2)) then
        (some (clampBox ctx.w ctx.h
          (anchor.1 + 24 * ((ctx.tape t).2).1, anchor.2 + 24 * ((ctx.tape t).2).2)), t + 1)
      else findOffset ctx pos k anchor fuel (t + 1)

/-- The anchor chosen by `random.choice(candidates)` (`engine.py` line
204): the tape's choice number modulo the candidate count indexes the
candidate list. -/
def anchorIdxOf (ctx : RepairCtx) (k t : Nat) : Nat :=
  ((staticIdx ctx.mobile).filter (fun n => n ≠ k)).getD
    ((ctx.tape t).1 % ((staticIdx ctx.mobile).filter (fun n => n ≠ k)).length) 0

/-- One iteration of `for node in static_nodes` (`engine.py` lines
197-235), on state (positions, changed flag, tape cursor).  The isolation
test uses `nb`, the neighbor table computed at the START of the pass, while
anchor positions and min-dist checks use the live positions.  On 50 failed
attempts the forced ring placement at 0.99 * COMM_RANGE runs only when no
node has been moved yet in this pass (the source tests the pass-wide
`changed` flag). -/
def repairStep (ctx : RepairCtx) (nb : List (List Nat))
    (s : List (ℚ × ℚ) × Bool × Nat) (k : Nat) : List (ℚ × ℚ) × Bool × Nat :=
  if (nb.getD k []).isEmpty then
    if ((staticIdx ctx.mobile).filter (fun n => n ≠ k)).isEmpty then s
    else
      match findOffset ctx s.1 k (s.1.getD (anchorIdxOf ctx k s.2.2) (0, 0))
          50 (s.2.2 + 1) with
      | (some p, t2) => (s.1.set k p, true, t2)
      | (none, t2) =>
          if s.2.1 = false then
            (s.1.set k (clampBox ctx.w ctx.h
              ((s.1.getD (anchorIdxOf ctx k s.2.2) (0, 0)).1
                  + 30 * ((ctx.tape t2).2).1 * (99 / 100),
               (s.1.getD (anchorIdxOf ctx k s.2.2) (0, 0)).2
                  + 30 * ((ctx.tape t2).2).2 * (99 / 100))),
             true, t2 + 1)
          else (s.1, s.2.1, t2)
  else s

/-- One pass of the `while changed` loop (`engine.py` lines 192-237):
recompute neighbors, then visit every static node once. -/
def repairPass (ctx : RepairCtx) (pos0 : List (ℚ × ℚ)) (t0 : Nat) :
    List (ℚ × ℚ) × Bool × Nat :=
  (staticIdx ctx.mobile).foldl (repairStep ctx (updateNeighbors pos0)) (pos0, false, t0)

/-- The `while changed` loop itself, fuel-indexed; the final Bool is true
exactly when the loop exited normally (a pass made no change) within the
given fuel. -/
def repairLoop (ctx : RepairCtx) : Nat → List (ℚ × ℚ) × Nat → (List (ℚ × ℚ) × Nat) × Bool
  | 0, s => (s, false)
  | fuel + 1, s =>
      if (repairPass ctx s.1 s.2).2.1 = true then
        repairLoop ctx fuel ((repairPass ctx s.1 s.2).1, (repairPass ctx s.1 s.2).2.2)
      else (((repairPass ctx s.1 s.2).1, (repairPass ctx s.1 s.2).2.2), true)

/-- Counterexample to C8: with a single stationary node (one sink, no mesh
nodes, no mobiles) the repair pass terminates immediately — the isolated
sink has no candidate anchors, so nothing changes — yet the lone stationary
node ends with ZERO neighbors, violating the claimed postcondition. -/
theorem repair_leaves_lone_node_isolated :
    (repairLoop ⟨200, 200, [false], 14, fun _ => (0, 1, 0)⟩ 3 ([(66, 100)], 0)).2 = true ∧
    (repairLoop ⟨200, 200, [false], 14, fun _ => (0, 1, 0)⟩ 3 ([(66, 100)], 0)).1.1 =
      [(66, 100)] ∧
    (updateNeighbors [((66 : ℚ), (100 : ℚ))]).getD 0 [] = [] := by
  refine ⟨by decide, by decide, by decide⟩

/-- A point inside the rectangular simulation area. -/
def inBox (w h : ℚ) (p : ℚ × ℚ) : Prop := 0 ≤ p.1 ∧ p.1 ≤ w ∧ 0 ≤ p.2 ∧ p.2 ≤ h

theorem clamp1_mem (hi x : ℚ) (h : 0 ≤ hi) : 0 ≤ clamp1 hi x ∧ clamp1 hi x ≤ hi := by
  unfold clamp1
  exact ⟨le_max_left 0 _, max_le h (min_le_left hi x)⟩

theorem clampBox_inBox (w h : ℚ) (p : ℚ × ℚ) (hw : 0 ≤ w) (hh : 0 ≤ h) :
    inBox w h (clampBox w h p) := by
  have h1 := clamp1_mem w p.1 hw
  have h2 := clamp1_mem h p.2 hh
  exact ⟨h1.1, h1.2, h2.1, h2.2⟩

theorem clamp1_closer (hi x c : ℚ) (h0 : 0 ≤ c) (h1 : c ≤ hi) :
    (clamp1 hi x - c) ^ 2 ≤ (x - c) ^ 2 := by
  unfold clamp1
  rcases le_total x hi with hx | hx
  · rw [min_eq_right hx]
    rcases le_total 0 x with h2 | h2
    · rw [max_eq_right h2]
    · rw [max_eq_left h2]
      nlinarith
  · rw [min_eq_left hx, max_eq_right (le_trans h0 h1)]
    nlinarith

theorem clampBox_closer (w h : ℚ) (p a : ℚ × ℚ) (ha : inBox w h a) :
    distSq (clampBox w h p) a ≤ distSq p a := by
  obtain ⟨h1, h2, h3, h4⟩ := ha
  have c1 := clamp1_closer w p.1 a.1 h1 h2
  have c2 := clamp1_closer h p.2 a.2 h3 h4
  unfold distSq clampBox
  exact add_le_add c1 c2

/-- A possible relocation target of the repair pass: the clip of a point on
the 0.8-radius or 0.99-radius ring around the anchor, for some tape
direction. -/
def ringPoint (ctx : RepairCtx) (anchor p : ℚ × ℚ) : Prop :=
  ∃ v : ℚ × ℚ, (∃ i, v = (ctx.tape i).2) ∧
    (p = clampBox ctx.w ctx.h (anchor.1 + 24 * v.1, anchor.2 + 24 * v.2) ∨
     p = clampBox ctx.w ctx.h
       (anchor.1 + 30 * v.1 * (99 / 100), anchor.2 + 30 * v.2 * (99 / 100)))

theorem offset24_within (w h : ℚ) (a v : ℚ × ℚ) (ha : inBox w h a)
    (hv : v.1 ^ 2 + v.2 ^ 2 = 1) :
    withinRange (clampBox w h (a.1 + 24 * v.1, a.2 + 24 * v.2)) a = true := by
  simp only [withinRange, COMM_RANGE, decide_eq_true_eq]
  have hd : distSq (a.1 + 24 * v.1, a.2 + 24 * v.2) a = 576 := by
    have he : distSq (a.1 + 24 * v.1, a.2 + 24 * v.2) a = 576 * (v.1 ^ 2 + v.2 ^ 2) := by
      unfold distSq
      ring
    rw [he, hv]
    norm_num
  calc distSq (clampBox w h (a.1 + 24 * v.1, a.2 + 24 * v.2)) a
      ≤ distSq (a.1 + 24 * v.1, a.2 + 24 * v.2) a := clampBox_closer w h _ a ha
    _ = 576 := hd
    _ ≤ (30 : ℚ) ^ 2 := by norm_num

theorem offset099_within (w h : ℚ) (a v : ℚ × ℚ) (ha : inBox w h a)
    (hv : v.1 ^ 2 + v.2 ^ 2 = 1) :
    withinRange (clampBox w h
      (a.1 + 30 * v.1 * (99 / 100), a.2 + 30 * v.2 * (99 / 100))) a = true := by
  simp only [withinRange, COMM_RANGE, decide_eq_true_eq]
  have hd : distSq (a.1 + 30 * v.1 * (99 / 100), a.2 + 30 * v.2 * (99 / 100)) a
      = (88209 / 100 : ℚ) := by
    have he : distSq (a.1 + 30 * v.1 * (99 / 100), a.2 + 30 * v.2 * (99 / 100)) a
        = (88209 / 100) * (v.1 ^ 2 + v.2 ^ 2) := by
      unfold distSq
      ring
    rw [he, hv]
    norm_num
  calc distSq (clampBox w h
        (a.1 + 30 * v.1 * (99 / 100), a.2 + 30 * v.2 * (99 / 100))) a
      ≤ distSq (a.1 + 30 * v.1 * (99 / 100), a.2 + 30 * v.2 * (99 / 100)) a :=
        clampBox_closer w h _ a ha
    _ = 88209 / 100 := hd
    _ ≤ (30 : ℚ) ^ 2 := by norm_num

theorem ringPoint_within (ctx : RepairCtx) (anchor p : ℚ × ℚ)
    (hunit : ∀ i, ((ctx.tape i).2.1) ^ 2 + ((ctx.tape i).2.2) ^ 2 = 1)
    (ha : inBox ctx.w ctx.h anchor) (hr : ringPoint ctx anchor p) :
    withinRange p anchor = true := by
  obtain ⟨v, ⟨i, hv⟩, hp | hp⟩ := hr
  · subst hp
    exact offset24_within _ _ _ _ ha (by rw [hv]; exact hunit i)
  · subst hp
    exact offset099_within _ _ _ _ ha (by rw [hv]; exact hunit i)

theorem ringPoint_inBox (ctx : RepairCtx) (anchor p : ℚ × ℚ)
    (hw : 0 ≤ ctx.w) (hh : 0 ≤ ctx.h) (hr : ringPoint ctx anchor p) :
    inBox ctx.w ctx.h p := by
  obtain ⟨v, -, hp | hp⟩ := hr
  · subst hp; exact clampBox_inBox _ _ _ hw hh
  · subst hp; exact clampBox_inBox _ _ _ hw hh

theorem findOffset_some (ctx : RepairCtx) (pos : List (ℚ × ℚ)) (k : Nat) (anchor : ℚ × ℚ) :
    ∀ (fuel t : Nat) (p : ℚ × ℚ),
      (findOffset ctx pos k anchor fuel t).1 = some p → ringPoint ctx anchor p := by
  intro fuel
  induction fuel with
  | zero =>
      intro t p h
      simp [findOffset] at h
  | succ n ih =>
      intro t p h
      unfold findOffset at h
      split at h
      · have hp : p = clampBox ctx.w ctx.h
            (anchor.1 + 24 * ((ctx.tape t).2).1, anchor.2 + 24 * ((ctx.tape t).2).2) := by
          injection h with h2
          exact h2.symm
        exact ⟨(ctx.tape t).2, ⟨t, rfl⟩, Or.inl hp⟩
      · exact ih (t + 1) p h

theorem list_getD_of_le {α : Type} (d : α) :
    ∀ (l : List α) (n : Nat), l.length ≤ n → l.getD n d = d
  | [], _, _ => rfl
  | _ :: _, 0, h => absurd h (by simp)
  | _ :: t, n + 1, h => list_getD_of_le d t n (by simpa using h)

theorem getD_mem {α : Type} (l : List α) (i : Nat) (d : α) (h : i < l.length) :
    l.getD i d ∈ l := by
  rw [List.getD_eq_getElem l d h]
  exact List.getElem_mem h

theorem staticIdx_lt (mobile : List Bool) (k : Nat) (h : k ∈ staticIdx mobile) :
    k < mobile.length := by
  unfold staticIdx at h
  exact List.mem_range.mp (List.mem_filter.mp h).1

/-- What one repair-pass iteration can do: leave position list and changed
flag untouched, or relocate k (isolated w.r.t. the pass-start table) onto a
clipped ring point around some other static node's current position and
raise the changed flag. -/
theorem repairStep_cases (ctx : RepairCtx) (nb : List (List Nat))
    (s : List (ℚ × ℚ) × Bool × Nat) (k : Nat) :
    ((repairStep ctx nb s k).1 = s.1 ∧ (repairStep ctx nb s k).2.1 = s.2.1) ∨
    ((nb.getD k []).isEmpty = true ∧ (repairStep ctx nb s k).2.1 = true ∧
      ∃ aidx p, aidx ∈ staticIdx ctx.mobile ∧ aidx ≠ k ∧
        ringPoint ctx (s.1.getD aidx (0, 0)) p ∧
        (repairStep ctx nb s k).1 = s.1.set k p) := by
  unfold repairStep
  by_cases hiso : (nb.getD k []).isEmpty = true
  · rw [if_pos hiso]
    by_cases hc : ((staticIdx ctx.mobile).filter (fun n => n ≠ k)).isEmpty = true
    · rw [if_pos hc]
      left
      exact ⟨rfl, rfl⟩
    · rw [if_neg hc]
      have hlen : 0 < ((staticIdx ctx.mobile).filter (fun n => n ≠ k)).length := by
        rcases hl : (staticIdx ctx.mobile).filter (fun n => n ≠ k) with _ | ⟨x, xs⟩
        · rw [hl] at hc
          simp at hc
        · simp [hl]
      have hmemc : anchorIdxOf ctx k s.2.2 ∈ (staticIdx ctx.mobile).filter (fun n => n ≠ k) :=
        getD_mem _ _ _ (Nat.mod_lt _ hlen)
      have hmem2 := List.mem_filter.mp hmemc
      have haidx : anchorIdxOf ctx k s.2.2 ∈ staticIdx ctx.mobile := hmem2.1
      have hne : anchorIdxOf ctx k s.2.2 ≠ k := by
        have := hmem2.2
        simpa using this
      split
      next p t2 heq =>
        right
        refine ⟨hiso, rfl, _, p, haidx, hne, ?_, rfl⟩
        exact findOffset_some ctx s.1 k _ 50 (s.2.2 + 1) p (by rw [heq])
      next t2 heq =>
        by_cases hch : s.2.1 = false
        · rw [if_pos hch]
          right
          refine ⟨hiso, rfl, _, _, haidx, hne, ?_, rfl⟩
          exact ⟨(ctx.tape t2).2, ⟨t2, rfl⟩, Or.inr rfl⟩
        · rw [if_neg hch]
          left
          exact ⟨rfl, rfl⟩
  · rw [if_neg hiso]
    left
    exact ⟨rfl, rfl⟩

theorem repairStep_length (ctx : RepairCtx) (nb : List (List Nat))
    (s : List (ℚ × ℚ) × Bool × Nat) (k : Nat) :
    (repairStep ctx nb s k).1.length = s.1.length := by
  rcases repairStep_cases ctx nb s k with ⟨h, -⟩ | ⟨-, -, aidx, p, -, -, -, h⟩
  · rw [h]
  · rw [h, List.length_set]

theorem repairStep_changed_mono (ctx : RepairCtx) (nb : List (List Nat))
    (s : List (ℚ × ℚ) × Bool × Nat) (k : Nat) (h : s.2.1 = true) :
    (repairStep ctx nb s k).2.1 = true := by
  rcases repairStep_cases ctx nb s k with ⟨-, h2⟩ | ⟨-, h2, -⟩
  · rw [h2, h]
  · exact h2

theorem repairStep_changed_back (ctx : RepairCtx) (nb : List (List Nat))
    (s : List (ℚ × ℚ) × Bool × Nat) (k : Nat) (h : (repairStep ctx nb s k).2.1 = false) :
    s.2.1 = false := by
  by_cases h2 : s.2.1 = true
  · rw [repairStep_changed_mono ctx nb s k h2] at h
    exact absurd h (by simp)
  · simpa using h2

theorem repairStep_preserves (ctx : RepairCtx) (nb : List (List Nat))
    (s : List (ℚ × ℚ) × Bool × Nat) (k j : Nat)
    (h : j ≠ k ∨ (nb.getD j []).isEmpty = false) :
    (repairStep ctx nb s k).1.getD j (0, 0) = s.1.getD j (0, 0) := by
  rcases repairStep_cases ctx nb s k with ⟨h1, -⟩ | ⟨hiso, -, aidx, p, -, -, -, h1⟩
  · rw [h1]
  · have hne : j ≠ k := by
      rcases h with hne | hni
      · exact hne
      · intro he
        rw [he, hiso] at hni
        exact absurd hni (by simp)
    rw [h1]
    exact list_set_getD_ne _ _ _ _ _ hne

theorem repairStep_inBox (ctx : RepairCtx) (nb : List (List Nat))
    (s : List (ℚ × ℚ) × Bool × Nat) (k : Nat) (hw : 0 ≤ ctx.w) (hh : 0 ≤ ctx.h)
    (hpos : ∀ j, inBox ctx.w ctx.h (s.1.getD j (0, 0))) :
    ∀ j, inBox ctx.w ctx.h ((repairStep ctx nb s k).1.getD j (0, 0)) := by
  intro j
  rcases repairStep_cases ctx nb s k with ⟨h1, -⟩ | ⟨-, -, aidx, p, -, -, hring, h1⟩
  · rw [h1]
    exact hpos j
  · rw [h1]
    by_cases hj : j = k
    · subst hj
      by_cases hlt : j < s.1.length
      · rw [list_set_getD_self _ _ _ _ hlt]
        exact ringPoint_inBox ctx _ p hw hh hring
      · rw [list_getD_of_le _ _ _ (by rw [List.length_set]; omega)]
        exact ⟨le_refl 0, hw, le_refl 0, hh⟩
    · rw [list_set_getD_ne _ _ _ _ _ hj]
      exact hpos j

theorem repairGo_length (ctx : RepairCtx) (nb : List (List Nat)) :
    ∀ (l : List Nat) (s : List (ℚ × ℚ) × Bool × Nat),
      (l.foldl (repairStep ctx nb) s).1.length = s.1.length := by
  intro l
  induction l with
  | nil => intro s; rfl
  | cons k rest ih =>
      intro s
      rw [List.foldl_cons, ih, repairStep_length]

theorem repairGo_changed_mono (ctx : RepairCtx) (nb : List (List Nat)) :
    ∀ (l : List Nat) (s : List (ℚ × ℚ) × Bool × Nat), s.2.1 = true →
      (l.foldl (repairStep ctx nb) s).2.1 = true := by
  intro l
  induction l with
  | nil => intro s h; exact h
  | cons k rest ih =>
      intro s h
      rw [List.foldl_cons]
      exact ih _ (repairStep_changed_mono ctx nb s k h)

theorem repairGo_inBox (ctx : RepairCtx) (nb : List (List Nat))
    (hw : 0 ≤ ctx.w) (hh : 0 ≤ ctx.h) :
    ∀ (l : List Nat) (s : List (ℚ × ℚ) × Bool × Nat),
      (∀ j, inBox ctx.w ctx.h (s.1.getD j (0, 0))) →
      ∀ j, inBox ctx.w ctx.h ((l.foldl (repairStep ctx nb) s).1.getD j (0, 0)) := by
  intro l
  induction l with
  | nil => intro s h; exact h
  | cons k rest ih =>
      intro s h
      rw [List.foldl_cons]
      exact ih _ (repairStep_inBox ctx nb s k hw hh h)

theorem repairGo_preserves (ctx : RepairCtx) (nb : List (List Nat)) :
    ∀ (l : List Nat) (s : List (ℚ × ℚ) × Bool × Nat) (j : Nat),
      (nb.getD j []).isEmpty = false →
      (l.foldl (repairStep ctx nb) s).1.getD j (0, 0) = s.1.getD j (0, 0) := by
  intro l
  induction l with
  | nil => intro s j _; rfl
  | cons k rest ih =>
      intro s j hj
      rw [List.foldl_cons, ih _ _ hj, repairStep_preserves ctx nb s k j (Or.inr hj)]

theorem withinRange_symm (a b : ℚ × ℚ) : withinRange a b = withinRange b a := by
  unfold withinRange
  rw [distSq_comm]

/-- In the "last mover" sense: a suffix of the pass either does nothing to
positions and flag, or ends with the flag raised and some pass-start
isolated static node within range of another static node at the final
positions. -/
theorem repairGo_edge (ctx : RepairCtx) (nb : List (List Nat))
    (hw : 0 ≤ ctx.w) (hh : 0 ≤ ctx.h)
    (hunit : ∀ i, ((ctx.tape i).2.1) ^ 2 + ((ctx.tape i).2.2) ^ 2 = 1) :
    ∀ (l : List Nat) (s : List (ℚ × ℚ) × Bool × Nat),
      (∀ k2 ∈ l, k2 ∈ staticIdx ctx.mobile) →
      s.1.length = ctx.mobile.length →
      (∀ j, inBox ctx.w ctx.h (s.1.getD j (0, 0))) →
      (((l.foldl (repairStep ctx nb) s).1 = s.1 ∧
          (l.foldl (repairStep ctx nb) s).2.1 = s.2.1) ∨
        ((l.foldl (repairStep ctx nb) s).2.1 = true ∧
          ∃ x a2, x ∈ staticIdx ctx.mobile ∧ (nb.getD x []).isEmpty = true ∧
            a2 ∈ staticIdx ctx.mobile ∧ a2 ≠ x ∧
            withinRange ((l.foldl (repairStep ctx nb) s).1.getD x (0, 0))
              ((l.foldl (repairStep ctx nb) s).1.getD a2 (0, 0)) = true)) := by
  intro l
  induction l with
  | nil => intro s _ _ _; left; exact ⟨rfl, rfl⟩
  | cons k rest ih =>
      intro s hl hlen hbox
      have hlen1 : (repairStep ctx nb s k).1.length = ctx.mobile.length := by
        rw [repairStep_length]; exact hlen
      have hbox1 := repairStep_inBox ctx nb s k hw hh hbox
      have hrest : ∀ k2 ∈ rest, k2 ∈ staticIdx ctx.mobile :=
        fun k2 h2 => hl k2 (List.mem_cons_of_mem _ h2)
      rw [List.foldl_cons]
      rcases ih (repairStep ctx nb s k) hrest hlen1 hbox1 with ⟨hpos, hchg⟩ |
        ⟨hchg, x, a2, hx1, hx2, ha1, hane, hwr⟩
      · rcases repairStep_cases ctx nb s k with ⟨h1, h2⟩ |
          ⟨hiso, h2, aidx, p, haidx, hane2, hring, h1⟩
        · left
          exact ⟨hpos.trans h1, hchg.trans h2⟩
        · right
          refine ⟨hchg.trans h2, k, aidx, hl k (List.mem_cons_self _ _), hiso,
            haidx, hane2, ?_⟩
          have hklt : k < s.1.length := by
            rw [hlen]; exact staticIdx_lt ctx.mobile k (hl k (List.mem_cons_self _ _))
          rw [hpos, h1, list_set_getD_self _ _ _ _ hklt,
            list_set_getD_ne _ _ _ _ _ hane2]
          exact ringPoint_within ctx _ p hunit (hbox aidx) hring
      · right
        exact ⟨hchg, x, a2, hx1, hx2, ha1, hane, hwr⟩

theorem repairStep_must_move (ctx : RepairCtx) (nb : List (List Nat))
    (s : List (ℚ × ℚ) × Bool × Nat) (k : Nat)
    (hiso : (nb.getD k []).isEmpty = true)
    (hc : ((staticIdx ctx.mobile).filter (fun n => n ≠ k)).isEmpty = false)
    (hch : s.2.1 = false) : (repairStep ctx nb s k).2.1 = true := by
  unfold repairStep
  rw [if_pos hiso, if_neg (by rw [hc]; exact Bool.false_ne_true)]
  split
  · rfl
  · rw [if_pos hch]

theorem repairGo_pos_of_nochange (ctx : RepairCtx) (nb : List (List Nat)) :
    ∀ (l : List Nat) (s : List (ℚ × ℚ) × Bool × Nat),
      (l.foldl (repairStep ctx nb) s).2.1 = false →
      (l.foldl (repairStep ctx nb) s).1 = s.1 := by
  intro l
  induction l with
  | nil => intro s _; rfl
  | cons k rest ih =>
      intro s h
      rw [List.foldl_cons] at h ⊢
      rcases repairStep_cases ctx nb s k with ⟨h1, -⟩ |
        ⟨-, h2, aidx, p, -, -, -, -⟩
      · rw [ih _ h, h1]
      · rw [repairGo_changed_mono ctx nb rest _ h2] at h
        exact absurd h (by simp)

theorem repairGo_nochange (ctx : RepairCtx) (nb : List (List Nat)) :
    ∀ (l : List Nat) (s : List (ℚ × ℚ) × Bool × Nat),
      (l.foldl (repairStep ctx nb) s).2.1 = false →
      s.2.1 = false ∧ ∀ k ∈ l, (nb.getD k []).isEmpty = true →
        ((staticIdx ctx.mobile).filter (fun n => n ≠ k)).isEmpty = true := by
  intro l
  induction l with
  | nil =>
      intro s h
      exact ⟨h, by intro k hk; cases hk⟩
  | cons k rest ih =>
      intro s h
      rw [List.foldl_cons] at h
      obtain ⟨h1, h2⟩ := ih _ h
      have hs : s.2.1 = false := repairStep_changed_back ctx nb s k h1
      refine ⟨hs, ?_⟩
      intro k2 hk2 hiso
      rcases List.mem_cons.mp hk2 with rfl | hk3
      · cases hcv : ((staticIdx ctx.mobile).filter (fun n => n ≠ k2)).isEmpty with
        | true => rfl
        | false =>
            have := repairStep_must_move ctx nb s k2 hiso hcv hs
            rw [this] at h1
            exact absurd h1 (by simp)
      · exact h2 k2 hk3 hiso

theorem filter_length_mono {α : Type} (p q : α → Bool) :
    ∀ l : List α, (∀ a ∈ l, q a = true → p a = true) →
      (l.filter q).length ≤ (l.filter p).length := by
  intro l
  induction l with
  | nil => intro _; simp
  | cons a rest ih =>
      intro h
      have hrest := ih (fun x hx => h x (List.mem_cons_of_mem _ hx))
      by_cases hq : q a = true
      · have hp := h a (List.mem_cons_self _ _) hq
        rw [List.filter_cons, List.filter_cons, if_pos hq, if_pos hp]
        simpa using hrest
      · rw [List.filter_cons, if_neg hq, List.filter_cons]
        by_cases hp : p a = true
        · rw [if_pos hp]
          exact le_trans hrest (by simp)
        · rw [if_neg hp]
          exact hrest

theorem filter_length_lt {α : Type} (p q : α → Bool) :
    ∀ l : List α, (∀ a ∈ l, q a = true → p a = true) →
      ∀ x ∈ l, p x = true → q x = false →
      (l.filter q).length < (l.filter p).length := by
  intro l
  induction l with
  | nil => intro _ x hx; cases hx
  | cons a rest ih =>
      intro h x hx hpx hqx
      rcases List.mem_cons.mp hx with rfl | hx2
      · rw [List.filter_cons, List.filter_cons, if_pos hpx,
          if_neg (by rw [hqx]; exact Bool.false_ne_true)]
        have := filter_length_mono p q rest (fun y hy => h y (List.mem_cons_of_mem _ hy))
        simp only [List.length_cons]
        omega
      · have hrest := ih (fun y hy => h y (List.mem_cons_of_mem _ hy)) x hx2 hpx hqx
        by_cases hq : q a = true
        · have hp := h a (List.mem_cons_self _ _) hq
          rw [List.filter_cons, List.filter_cons, if_pos hq, if_pos hp]
          simp only [List.length_cons]
          omega
        · rw [List.filter_cons, if_neg hq, List.filter_cons]
          by_cases hp : p a = true
          · rw [if_pos hp]
            simp only [List.length_cons]
            omega
          · rw [if_neg hp]
            exact hrest

theorem cands_ne_empty (mobile : List Bool) (k : Nat)
    (h2 : 2 ≤ (staticIdx mobile).length) :
    ((staticIdx mobile).filter (fun n => n ≠ k)).isEmpty = false := by
  have hnd : (staticIdx mobile).Nodup := (List.nodup_range _).filter _
  obtain ⟨c, hc1, hc2⟩ : ∃ c ∈ staticIdx mobile, c ≠ k := by
    rcases hl : staticIdx mobile with _ | ⟨a, rest⟩
    · rw [hl] at h2; simp at h2
    · rcases hr : rest with _ | ⟨b, rest2⟩
      · rw [hl, hr] at h2; simp at h2
      · have hab : a ≠ b := by
          rw [hl, hr] at hnd
          have := List.nodup_cons.mp hnd
          exact fun he => this.1 (he ▸ List.mem_cons_self b rest2)
        by_cases hak : a = k
        · exact ⟨b, List.mem_cons_of_mem _ (List.mem_cons_self _ _),
            fun he => hab (hak.trans he.symm)⟩
        · exact ⟨a, List.mem_cons_self _ _, hak⟩
  have hmem : c ∈ (staticIdx mobile).filter (fun n => n ≠ k) :=
    List.mem_filter.mpr ⟨hc1, by simpa using hc2⟩
  cases hf : (staticIdx mobile).filter (fun n => n ≠ k) with
  | nil => rw [hf] at hmem; cases hmem
  | cons y ys => simp [hf]

/-- The pass-start isolated static nodes, the termination measure. -/
def isoFilter (ctx : RepairCtx) (pos : List (ℚ × ℚ)) : List Nat :=
  (staticIdx ctx.mobile).filter (fun k => ((updateNeighbors pos).getD k []).isEmpty)

theorem mem_getD_ne_empty (l : List (List Nat)) (k j : Nat)
    (h : j ∈ l.getD k []) : (l.getD k []).isEmpty = false := by
  cases hl : l.getD k [] with
  | nil => rw [hl] at h; cases h
  | cons a r => simp

theorem repairPass_progress (ctx : RepairCtx) (pos : List (ℚ × ℚ)) (t : Nat)
    (hw : 0 ≤ ctx.w) (hh : 0 ≤ ctx.h)
    (hunit : ∀ i, ((ctx.tape i).2.1) ^ 2 + ((ctx.tape i).2.2) ^ 2 = 1)
    (hlen : pos.length = ctx.mobile.length)
    (hbox : ∀ j, inBox ctx.w ctx.h (pos.getD j (0, 0)))
    (hch : (repairPass ctx pos t).2.1 = true) :
    (isoFilter ctx (repairPass ctx pos t).1).length < (isoFilter ctx pos).length := by
  have hlen2 : (repairPass ctx pos t).1.length = pos.length :=
    repairGo_length ctx (updateNeighbors pos) (staticIdx ctx.mobile) (pos, false, t)
  have himp : ∀ k ∈ staticIdx ctx.mobile,
      ((updateNeighbors (repairPass ctx pos t).1).getD k []).isEmpty = true →
      ((updateNeighbors pos).getD k []).isEmpty = true := by
    intro k hk hiso2
    cases hiso : ((updateNeighbors pos).getD k []).isEmpty with
    | true => rfl
    | false =>
        exfalso
        obtain ⟨j, hj⟩ : ∃ j, j ∈ (updateNeighbors pos).getD k [] := by
          cases hll : (updateNeighbors pos).getD k [] with
          | nil => rw [hll] at hiso; simp at hiso
          | cons a r => exact ⟨a, hll ▸ List.mem_cons_self a r⟩
        have hj2 := (updateNeighbors_mem pos k j).mp hj
        have hsym : k ∈ (updateNeighbors pos).getD j [] := by
          rw [updateNeighbors_mem]
          rcases hj2 with ⟨h1, h2, h3⟩ | ⟨h1, h2, h3⟩
          · exact Or.inr ⟨h1, h2, h3⟩
          · exact Or.inl ⟨h1, h2, h3⟩
        have hjne := mem_getD_ne_empty _ _ _ hsym
        have hkne := mem_getD_ne_empty _ _ _ hj
        have hpk : (repairPass ctx pos t).1.getD k (0, 0) = pos.getD k (0, 0) :=
          repairGo_preserves ctx (updateNeighbors pos) (staticIdx ctx.mobile)
            (pos, false, t) k hkne
        have hpj : (repairPass ctx pos t).1.getD j (0, 0) = pos.getD j (0, 0) :=
          repairGo_preserves ctx (updateNeighbors pos) (staticIdx ctx.mobile)
            (pos, false, t) j hjne
        have hj3 : j ∈ (updateNeighbors (repairPass ctx pos t).1).getD k [] := by
          rw [updateNeighbors_mem]
          rcases hj2 with ⟨h1, h2, h3⟩ | ⟨h1, h2, h3⟩
          · exact Or.inl ⟨h1, by rw [hlen2]; exact h2, by rw [hpk, hpj]; exact h3⟩
          · exact Or.inr ⟨h1, by rw [hlen2]; exact h2, by rw [hpj, hpk]; exact h3⟩
        rw [mem_getD_ne_empty _ _ _ hj3] at hiso2
        exact absurd hiso2 (by simp)
  rcases repairGo_edge ctx (updateNeighbors pos) hw hh hunit (staticIdx ctx.mobile)
      (pos, false, t) (fun k2 hk2 => hk2) hlen hbox with ⟨-, hc2⟩ |
    ⟨-, x, a2, hx1, hx2, ha1, hane, hwr⟩
  · have hch2 : (List.foldl (repairStep ctx (updateNeighbors pos)) (pos, false, t)
        (staticIdx ctx.mobile)).2.1 = true := hch
    rw [hch2] at hc2
    exact absurd hc2.symm (by simp)
  · have hx3 : a2 ∈ (updateNeighbors (repairPass ctx pos t).1).getD x [] := by
      rw [updateNeighbors_mem]
      have hxlt : x < (repairPass ctx pos t).1.length := by
        rw [hlen2, hlen]; exact staticIdx_lt ctx.mobile x hx1
      have halt : a2 < (repairPass ctx pos t).1.length := by
        rw [hlen2, hlen]; exact staticIdx_lt ctx.mobile a2 ha1
      rcases Nat.lt_or_ge x a2 with hlt | hge
      · exact Or.inl ⟨hlt, halt, by rw [withinRange_symm]; rw [withinRange_symm] at hwr; exact hwr⟩
      · have hlt2 : a2 < x := by
          rcases Nat.lt_or_ge a2 x with h | h
          · exact h
          · exact absurd (Nat.le_antisymm hge h) hane
        exact Or.inr ⟨hlt2, hxlt, by rw [withinRange_symm] at hwr; exact hwr⟩
    have hq := mem_getD_ne_empty _ _ _ hx3
    exact filter_length_lt _ _ (staticIdx ctx.mobile) himp x hx1 hx2 hq

theorem repairPass_nochange (ctx : RepairCtx) (pos : List (ℚ × ℚ)) (t : Nat)
    (h2 : 2 ≤ (staticIdx ctx.mobile).length)
    (hch : (repairPass ctx pos t).2.1 = false) :
    (repairPass ctx pos t).1 = pos ∧ isoFilter ctx pos = [] := by
  have hch2 : (List.foldl (repairStep ctx (updateNeighbors pos)) (pos, false, t)
      (staticIdx ctx.mobile)).2.1 = false := hch
  constructor
  · exact repairGo_pos_of_nochange ctx (updateNeighbors pos) (staticIdx ctx.mobile)
      (pos, false, t) hch2
  · obtain ⟨-, hall⟩ := repairGo_nochange ctx (updateNeighbors pos)
      (staticIdx ctx.mobile) (pos, false, t) hch2
    unfold isoFilter
    rw [List.filter_eq_nil]
    intro k hk hiso
    have hv := hall k hk hiso
    rw [cands_ne_empty ctx.mobile k h2] at hv
    exact absurd hv (by simp)

theorem repairStep_id_of_notiso (ctx : RepairCtx) (nb : List (List Nat))
    (s : List (ℚ × ℚ) × Bool × Nat) (k : Nat)
    (h : (nb.getD k []).isEmpty = false) : repairStep ctx nb s k = s := by
  unfold repairStep
  rw [if_neg (by rw [h]; exact Bool.false_ne_true)]

theorem repairGo_id_of_noiso (ctx : RepairCtx) (nb : List (List Nat)) :
    ∀ (l : List Nat) (s : List (ℚ × ℚ) × Bool × Nat),
      (∀ k ∈ l, (nb.getD k []).isEmpty = false) →
      l.foldl (repairStep ctx nb) s = s := by
  intro l
  induction l with
  | nil => intro s _; rfl
  | cons k rest ih =>
      intro s h
      rw [List.foldl_cons, repairStep_id_of_notiso ctx nb s k (h k (List.mem_cons_self _ _))]
      exact ih s (fun k2 h2 => h k2 (List.mem_cons_of_mem _ h2))

theorem repairPass_of_noiso (ctx : RepairCtx) (pos : List (ℚ × ℚ)) (t : Nat)
    (h : isoFilter ctx pos = []) : repairPass ctx pos t = (pos, false, t) := by
  apply repairGo_id_of_noiso
  intro k hk
  cases hv : ((updateNeighbors pos).getD k []).isEmpty with
  | false => rfl
  | true =>
      exfalso
      have hmem : k ∈ isoFilter ctx pos := List.mem_filter.mpr ⟨hk, hv⟩
      rw [h] at hmem
      cases hmem

theorem repairLoop_terminates (ctx : RepairCtx)
    (hw : 0 ≤ ctx.w) (hh : 0 ≤ ctx.h)
    (hunit : ∀ i, ((ctx.tape i).2.1) ^ 2 + ((ctx.tape i).2.2) ^ 2 = 1)
    (h2 : 2 ≤ (staticIdx ctx.mobile).length) :
    ∀ (n : Nat) (pos : List (ℚ × ℚ)) (t : Nat),
      (isoFilter ctx pos).length ≤ n →
      pos.length = ctx.mobile.length →
      (∀ j, inBox ctx.w ctx.h (pos.getD j (0, 0))) →
      ∃ fuel, (repairLoop ctx fuel (pos, t)).2 = true ∧
        isoFilter ctx (repairLoop ctx fuel (pos, t)).1.1 = [] := by
  intro n
  induction n with
  | zero =>
      intro pos t hm hlen hbox
      have hiso : isoFilter ctx pos = [] := by
        cases hi : isoFilter ctx pos with
        | nil => rfl
        | cons a r => rw [hi] at hm; simp at hm
      refine ⟨1, ?_, ?_⟩
      · unfold repairLoop
        rw [if_neg (by rw [repairPass_of_noiso ctx pos t hiso]; simp)]
      · unfold repairLoop
        rw [if_neg (by rw [repairPass_of_noiso ctx pos t hiso]; simp)]
        have hp : (repairPass ctx pos t).1 = pos := by
          rw [repairPass_of_noiso ctx pos t hiso]
        simpa [hp] using hiso
  | succ m ih =>
      intro pos t hm hlen hbox
      by_cases hch : (repairPass ctx pos t).2.1 = true
      · have hprog := repairPass_progress ctx pos t hw hh hunit hlen hbox hch
        have hlen2 : (repairPass ctx pos t).1.length = ctx.mobile.length := by
          have hl2 : (List.foldl (repairStep ctx (updateNeighbors pos)) (pos, false, t)
              (staticIdx ctx.mobile)).1.length = pos.length :=
            repairGo_length ctx (updateNeighbors pos) (staticIdx ctx.mobile) (pos, false, t)
          rw [← hlen]
          exact hl2
        have hbox2 : ∀ j, inBox ctx.w ctx.h ((repairPass ctx pos t).1.getD j (0, 0)) :=
          repairGo_inBox ctx (updateNeighbors pos) hw hh (staticIdx ctx.mobile)
            (pos, false, t) hbox
        obtain ⟨fuel, hfin, hiso⟩ := ih (repairPass ctx pos t).1 (repairPass ctx pos t).2.2
          (by omega) hlen2 hbox2
        refine ⟨fuel + 1, ?_, ?_⟩
        · unfold repairLoop
          rw [if_pos hch]
          exact hfin
        · unfold repairLoop
          rw [if_pos hch]
          exact hiso
      · have hch2 : (repairPass ctx pos t).2.1 = false := by
          cases hb : (repairPass ctx pos t).2.1 with
          | false => rfl
          | true => exact absurd hb hch
        obtain ⟨hpos, hiso⟩ := repairPass_nochange ctx pos t h2 hch2
        refine ⟨1, ?_, ?_⟩
        · unfold repairLoop
          rw [if_neg hch]
        · unfold repairLoop
          rw [if_neg hch]
          simpa [hpos] using hiso

/-- C8 amended: PROVIDED at least two stationary nodes exist and every node
starts inside the area rectangle, the connectivity-repair pass terminates
(a pass eventually reports no change) and on termination every stationary
node has at least one neighbor under the communication range.  With a
single stationary node the pass still terminates but leaves it
neighborless, and with nodes placed outside the area the relocation targets
are clipped back to the boundary and need not connect, so both
restrictions are necessary. -/
theorem repair_terminates_all_connected (ctx : RepairCtx) (pos : List (ℚ × ℚ)) (t : Nat)
    (hw : 0 ≤ ctx.w) (hh : 0 ≤ ctx.h)
    (hunit : ∀ i, ((ctx.tape i).2.1) ^ 2 + ((ctx.tape i).2.2) ^ 2 = 1)
    (h2 : 2 ≤ (staticIdx ctx.mobile).length)
    (hlen : pos.length = ctx.mobile.length)
    (hbox : ∀ j, inBox ctx.w ctx.h (pos.getD j (0, 0))) :
    ∃ fuel, (repairLoop ctx fuel (pos, t)).2 = true ∧
      ∀ k ∈ staticIdx ctx.mobile,
        (updateNeighbors (repairLoop ctx fuel (pos, t)).1.1).getD k [] ≠ [] := by
  obtain ⟨fuel, hterm, hiso⟩ := repairLoop_terminates ctx hw hh hunit h2
    (isoFilter ctx pos).length pos t le_rfl hlen hbox
  refine ⟨fuel, hterm, ?_⟩
  intro k hk hnil
  have hmem : k ∈ isoFilter ctx (repairLoop ctx fuel (pos, t)).1.1 :=
    List.mem_filter.mpr ⟨hk, by rw [hnil]; rfl⟩
  rw [hiso] at hmem
  cases hmem

/-- Witness for C8 amended: two far-apart stationary nodes in a 200 x 200
area; the repair loop terminates and both end up with a neighbor. -/
theorem repair_terminates_all_connected_witness :
    ∃ fuel,
      (repairLoop ⟨200, 200, [false, false], 14, fun _ => (0, 1, 0)⟩ fuel
          ([(0, 0), (100, 0)], 0)).2 = true ∧
      ∀ k ∈ staticIdx [false, false],
        (updateNeighbors (repairLoop ⟨200, 200, [false, false], 14, fun _ => (0, 1, 0)⟩
            fuel ([(0, 0), (100, 0)], 0)).1.1).getD k [] ≠ [] := by
  refine repair_terminates_all_connected _ _ 0 (by norm_num) (by norm_num)
    (fun i => by norm_num) (by decide) (by decide) ?_
  intro j
  rcases j with _ | j
  · refine ⟨le_refl 0, by norm_num, le_refl 0, by norm_num⟩
  · rcases j with _ | j
    · refine ⟨by norm_num, by norm_num, le_refl 0, by norm_num⟩
    · rw [list_getD_of_le (0, 0) _ _
        (by simp only [List.length_cons, List.length_nil]; omega)]
      refine ⟨le_refl 0, by norm_num, le_refl 0, by norm_num⟩
